import Mathlib

/-!
Verification development for the SolarDesktop numeric core
(`src/solar/solar`): the immutable vector layer, the n-body force model,
the Hamiltonian energy diagnostic, the generic explicit Runge-Kutta
stepper and the simulation driver.

Modelling conventions.
* Python floats are idealised as real numbers (`ℝ`); `numpy` float
  arithmetic follows the same idealisation.  All definitions below are
  translated from the Python source, file by file.
* Python `Vector` values and `numpy` 1-d arrays are both embedded as
  `List ℝ`; the operator methods of `Vector` keep their error behaviour
  through `Except String`.
* Functions whose error paths are unreachable in every modelled context
  (because each `Body` carries exactly 3-dimensional position/velocity
  vectors) are embedded as total functions; this is noted at each such
  definition.  Division by zero follows the Lean convention `x / 0 = 0`;
  the source treats a zero distance as a precondition violation
  (spec section 7), and every claim about the force law carries the
  pairwise-distinct-positions hypothesis that rules it out.
* Python generators are embedded as the finite list of the values they
  yield; a raised exception becomes an `Except.error` for the whole run.
* Object identity (used by `exclude` and the duplicate-body checks) is
  embedded positionally: the list index plays the role of the instance.
-/

namespace Solar

open scoped Classical

noncomputable section

/-- Gravitational constant, `__G = 6.6743015e-11` in
`math/physic/__init__.py`. -/
def G : ℝ := 6.6743015e-11

/-- Exception propagation: run `g` on the value of `e` unless `e` raised.
This is the plumbing of ordinary sequential Python code in which any raised
exception aborts the enclosing computation. -/
def andThen {α β : Type} (e : Except String α) (g : α → Except String β) :
    Except String β :=
  match e with
  | .error msg => .error msg
  | .ok a => g a

/-! ## `math/tools/vector.py` -/

/-- `Vector.__add__`: if the right operand has length 0 the left operand is
returned unchanged; otherwise unequal lengths raise `ValueError`, else the
sum is computed elementwise. -/
def Vector.add (u v : List ℝ) : Except String (List ℝ) :=
  if v.length = 0 then .ok u
  else if u.length ≠ v.length then .error "v must have the same len than self"
  else .ok (List.zipWith (· + ·) u v)

/-- `Vector.__sub__`: same guard structure as `Vector.__add__`. -/
def Vector.sub (u v : List ℝ) : Except String (List ℝ) :=
  if v.length = 0 then .ok u
  else if u.length ≠ v.length then .error "v must have the same len than self"
  else .ok (List.zipWith (· - ·) u v)

/-- `Vector.__matmul__` (dot product): a right operand of length 0 yields 0;
otherwise unequal lengths raise `ValueError`, else the dot product. -/
def Vector.matmul (u v : List ℝ) : Except String ℝ :=
  if v.length = 0 then .ok 0
  else if u.length ≠ v.length then .error "v must have the same len than self"
  else .ok ((List.zipWith (· * ·) u v).sum)

/-- `Vector.__mul__`: scaling by a real number, elementwise `x * number`. -/
def Vector.smul (u : List ℝ) (c : ℝ) : List ℝ := u.map (· * c)

/-- `Vector.__getitem__` with an integer index: raises `IndexError` when
`i >= len(self)`; otherwise it defers to Python tuple indexing, which
serves negative indices from the end and raises only below `-len(self)`. -/
def Vector.getItemInt (v : List ℝ) (i : ℤ) : Except String ℝ :=
  if (v.length : ℤ) ≤ i then .error "outside of range"
  else if 0 ≤ i then .ok (v.getD i.toNat 0)
  else if -(v.length : ℤ) ≤ i then .ok (v.getD ((v.length : ℤ) + i).toNat 0)
  else .error "tuple index out of range"

/-- Python clamping of one slice bound against a tuple of length `len`. -/
def pyClamp (len : ℕ) (i : ℤ) : ℕ :=
  if i < 0 then ((len : ℤ) + i).toNat else min i.toNat len

/-- `Vector.__getitem__` with a slice (step omitted, as in every call site):
raises `IndexError` when a given `start` is negative or a given `stop`
exceeds the length; otherwise defers to Python tuple slicing. -/
def Vector.getItemSlice (v : List ℝ) (start stop : Option ℤ) :
    Except String (List ℝ) :=
  if ∃ s, start = some s ∧ s < 0 then .error "start outside of range"
  else if ∃ s, stop = some s ∧ (v.length : ℤ) < s then
    .error "stop outside of range"
  else
    .ok ((v.take (pyClamp v.length (stop.getD (v.length : ℤ)))).drop
      (pyClamp v.length (start.getD 0)))

/-- In-range Python slice `l[a:b]` with `0 ≤ a ≤ b ≤ l.length`, as used by
`n_body` and the driver to cut 3-element blocks out of the flat state. -/
def pyslice (l : List ℝ) (a b : ℕ) : List ℝ := (l.drop a).take (b - a)

/-! ## `solar/__init__.py`: norm and distance -/

/-- `norm(v, deg)`: `(sum of |el| ** deg) ** (1/deg)`.  The claims only use
`deg = 2`; the `deg <= 0` ValueError guard of the source is not exercised
by any claim and is omitted. -/
def norm (v : List ℝ) (deg : ℕ) : ℝ :=
  (v.foldl (fun acc el => acc + |el| ^ deg) 0) ^ ((1 : ℝ) / (deg : ℝ))

/-- `get_magnitude(v1, v2) = norm(v2 - v1, 2)`.  The subtraction is the
elementwise `numpy` one; every call site passes two 3-dimensional
positions, so the length-mismatch ValueError of the source cannot fire and
the function is embedded as total. -/
def get_magnitude (v1 v2 : List ℝ) : ℝ :=
  norm (List.zipWith (· - ·) v2 v1) 2

/-! ## `math/physic/body.py` -/

/-- A point mass (`Body`): mass with 3-d position and velocity. -/
structure Body where
  mass : ℝ
  position : List ℝ
  velocity : List ℝ
deriving Inhabited

/-- `Body.__init__` validation: mass must be strictly positive and the
position/velocity sequences exactly 3-dimensional. -/
def Body.make (mass : ℝ) (position velocity : List ℝ) : Except String Body :=
  if mass ≤ 0 then .error "Mass of a body must be strictly positive."
  else if position.length ≠ 3 then .error "Position must be in 3D."
  else if velocity.length ≠ 3 then .error "Velocity must be in 3D."
  else .ok ⟨mass, position, velocity⟩

/-- `flatten(bodies, split_mass=True)` from `body.py`: the positions and
velocities of all bodies concatenated into one flat state, with the masses
collected in a parallel sequence. -/
def flatten (bodies : List Body) : List ℝ × List ℝ :=
  (bodies.foldl (fun params b => params ++ b.position ++ b.velocity) [],
   bodies.foldl (fun masses b => masses ++ [b.mass]) [])

/-! ## `math/physic/__init__.py` -/

/-- `get_acceleration(others, particle)`: fold over the other bodies,
accumulating `dir * (G * other.mass / r ** 3)` with
`dir = other.position - particle.position` and
`r = get_magnitude(particle.position, other.position)`.  All positions at
every call site are 3-dimensional, so the vector additions are embedded as
total elementwise operations. -/
def get_acceleration (others : List Body) (particle : Body) : List ℝ :=
  others.foldl
    (fun acceleration other =>
      List.zipWith (· + ·) acceleration
        (Vector.smul (List.zipWith (· - ·) other.position particle.position)
          (G * other.mass / get_magnitude particle.position other.position ^ 3)))
    [0, 0, 0]

/-- `range(0, len, 6)` as used by `n_body` and the driver. -/
def pyrange6 (len : ℕ) : List ℕ := (List.range ((len + 5) / 6)).map (· * 6)

/-- The body-list reconstruction shared by `n_body` and the driver loop:
`[Body(mass, state[i:i+3], state[i+3:i+6]) for (i, mass) in
zip(range(0, len(state), 6), masses)]`. -/
def bodiesFromState (current_state masses : List ℝ) : Except String (List Body) :=
  ((pyrange6 current_state.length).zip masses).mapM
    (fun p => Body.make p.2 (pyslice current_state p.1 (p.1 + 3))
      (pyslice current_state (p.1 + 3) (p.1 + 6)))

/-- `n_body(t, current_state, masses)`: after the `6*len(masses) ==
len(current_state)` check, reconstructs the bodies and emits, per body in
state order, its velocity followed by its acceleration against all other
bodies.  `exclude` removes by object identity, embedded here as removal of
the list index (`eraseIdx`). -/
def n_body (t : ℝ) (current_state masses : List ℝ) : Except String (List ℝ) :=
  if 6 * masses.length ≠ current_state.length then
    .error "masses and current_state are out of sync"
  else
    andThen (bodiesFromState current_state masses) (fun body_list =>
      .ok ((body_list.enum.map (fun p =>
        p.2.velocity ++ get_acceleration (body_list.eraseIdx p.1) p.2)).flatten))

/-- `get_gravitational_energy`: the negated accumulation of
`G * m_i * m_j / get_magnitude(p_i, p_j)` over `i` and `j in
range(i+1, len(particles))`. -/
def get_gravitational_energy (particles : List Body) : ℝ :=
  -(∑ i ∈ Finset.range particles.length, ∑ j ∈ Finset.Ico (i + 1) particles.length,
      G * (particles.getD i default).mass * (particles.getD j default).mass /
        get_magnitude (particles.getD i default).position
          (particles.getD j default).position)

/-- `get_kinetic_energy_gen`: the sum of `norm(velocity * mass, 2) ** 2 /
(2 * mass)` over the given (mass, velocity) pairs. -/
def get_kinetic_energy_gen (particles : List (ℝ × List ℝ)) : ℝ :=
  (particles.map (fun p => norm (Vector.smul p.2 p.1) 2 ^ 2 / (2 * p.1))).sum

/-- `hamiltonian`: gravitational plus kinetic energy. -/
def hamiltonian (particles : List Body) : ℝ :=
  get_gravitational_energy particles +
    get_kinetic_energy_gen (particles.map (fun b => (b.mass, b.velocity)))

/-! ## `math/integrator/rungekutta.py` -/

/-- 2-d indexing `A[i, j]` into the tableau matrix: both `numpy` arrays and
the `Matrix` class raise `IndexError` when a coordinate is at or beyond the
corresponding extent. -/
def aGet (A : List (List ℝ)) (i j : ℕ) : Except String ℝ :=
  if i < A.length then
    if j < (A.getD i []).length then .ok ((A.getD i []).getD j 0)
    else .error "index out of bounds"
  else .error "index out of bounds"

/-- Elementwise `numpy` addition, used inside `ARK.__sum`: unlike
`Vector.__add__` there is no special case for an empty operand. -/
def npAdd (u v : List ℝ) : Except String (List ℝ) :=
  if u.length ≠ v.length then .error "operands could not be broadcast together"
  else .ok (List.zipWith (· + ·) u v)

/-- `ARK.__sum(vectors)`: the empty collection yields the empty Python
list; otherwise a left fold of elementwise addition over the collection,
started from a zero array of the length of the last element. -/
def arkSum (vectors : List (List ℝ)) : Except String (List ℝ) :=
  if vectors.isEmpty then .ok []
  else vectors.foldlM npAdd (List.replicate (vectors.getLastD []).length 0)

/-- The tableau validation at the head of `ARK.run_simulation`: the three
lengths must agree, and each row of `A` must have the length of its
predecessor row (cyclically, since Python `A[i-1]` for `i = 0` is the last
row). -/
def validateTableau (A : List (List ℝ)) (b c : List ℝ) : Except String Unit :=
  if A.length ≠ c.length ∨ c.length ≠ b.length ∨ A.length ≠ b.length then
    .error "the A, b, c static attributes are not the right format"
  else if (List.range A.length).all (fun i =>
      (A.getD i []).length == (A.getD ((i + A.length - 1) % A.length) []).length)
    then .ok ()
  else .error "A must be a Matrix-like"

/-- The inner stage loop of `ARK.run_simulation`: for each node `c_i` (with
stage index `i`), append `f(t + c_i*h, y + sum(k_j * A[i,j] for j, k_j in
enumerate(k_list)), **kwargs) * h` to the stage list. -/
def stagesGo (f : ℝ → List ℝ → Except String (List ℝ)) (A : List (List ℝ))
    (h t : ℝ) (y : List ℝ) :
    List ℝ → ℕ → List (List ℝ) → Except String (List (List ℝ))
  | [], _, k_list => .ok k_list
  | c_i :: rest, i, k_list =>
    andThen (k_list.enum.mapM (fun jk =>
        andThen (aGet A i jk.1) (fun a => .ok (Vector.smul jk.2 a))))
      (fun comb => andThen (arkSum comb)
        (fun s => andThen (Vector.add y s) (fun yi =>
          andThen (f (t + c_i * h) yi) (fun fv =>
            stagesGo f A h t y rest (i + 1) (k_list ++ [Vector.smul fv h])))))

/-- One iteration of the outer loop of `ARK.run_simulation`: compute the
stages, then `y += sum(k_ni * b_i for b_i, k_ni in zip(b, k_list))` and
`t += h`. -/
def rkStep (f : ℝ → List ℝ → Except String (List ℝ)) (A : List (List ℝ))
    (b c : List ℝ) (h : ℝ) (st : List ℝ × ℝ) : Except String (List ℝ × ℝ) :=
  andThen (stagesGo f A h st.2 st.1 c 0 []) (fun k_list =>
    andThen (arkSum ((b.zip k_list).map (fun p => Vector.smul p.2 p.1)))
      (fun s => andThen (Vector.add st.1 s) (fun y2 => .ok (y2, st.2 + h))))

/-- `m`-fold application of the step update (used to state which state each
emitted element is). -/
def stepIter (step : List ℝ × ℝ → Except String (List ℝ × ℝ)) :
    ℕ → List ℝ × ℝ → Except String (List ℝ × ℝ)
  | 0, st => .ok st
  | m + 1, st => andThen (step st) (fun st2 => stepIter step m st2)

/-- The outer loop of `ARK.run_simulation`: iterate the step update,
yielding the updated state after each iteration; a raised exception aborts
the generator. -/
def rkIter (step : List ℝ × ℝ → Except String (List ℝ × ℝ)) :
    ℕ → List ℝ × ℝ → Except String (List (List ℝ))
  | 0, _ => .ok []
  | m + 1, st =>
    andThen (step st) (fun st2 =>
      andThen (rkIter step m st2) (fun rest => .ok (st2.1 :: rest)))

/-- `ARK.__init__` followed by `ARK.run_simulation`: the constructor rejects
a null integration domain and a non-positive step count, `run_simulation`
validates the tableau and then runs `n + 1` iterations of the step loop
with `h = (tn - t0) / n`, yielding the updated state each time. -/
def ARK.run_simulation (f : ℝ → List ℝ → Except String (List ℝ)) (y0 : List ℝ)
    (t0 tn : ℝ) (n : ℤ) (A : List (List ℝ)) (b c : List ℝ) :
    Except String (List (List ℝ)) :=
  if t0 - tn = 0 then .error "null domain to integrate"
  else if n ≤ 0 then .error "should at least have 1 step"
  else
    andThen (validateTableau A b c) (fun _ =>
      rkIter (rkStep f A b c ((tn - t0) / (n : ℝ))) (n.toNat + 1) (y0, t0))

/-- The `ERK4` tableau matrix `A`. -/
def ERK4A : List (List ℝ) :=
  [[0, 0, 0, 0], [1/2, 0, 0, 0], [0, 1/2, 0, 0], [0, 0, 1, 0]]

/-- The `ERK4` weight vector `b`. -/
def ERK4b : List ℝ := [1/6, 1/3, 1/3, 1/6]

/-- The `ERK4` node vector `c`. -/
def ERK4c : List ℝ := [0, 1/2, 1/2, 1]

/-! ## `solar_simulator.py` -/

/-- Per-body trajectory record of the driver (`statedict` entry). -/
structure Traj where
  xs : List ℝ
  ys : List ℝ
  zs : List ℝ

/-- The result surface of a driver run: per-body trajectories and the
energy series (time, Hamiltonian, Hamiltonian delta). -/
structure DriverResult where
  traj : List Traj
  errX : List ℝ
  errY : List ℝ
  errDY : List ℝ

/-- `SOLARSimulator.__init__`: rejects (in this order) two index-distinct
bodies with identical coordinates (comparison by `zip` over the two
position arrays), a non-positive duration, and a step outside
`(0, duration]`; on success it only stores its arguments, running no
integration step. -/
def SOLARSimulator.make (data : List Body) (duration step : ℤ) :
    Except String (List Body × ℤ × ℤ) :=
  if ∃ i, ∃ j, i < data.length ∧ j < data.length ∧ i ≠ j ∧
      ∀ p ∈ (data.getD i default).position.zip (data.getD j default).position,
        p.1 = p.2 then
    .error "Please make sure all bodies have different coordinates"
  else if duration ≤ 0 then .error "negative simulation duration"
  else if step ≤ 0 ∨ duration < step then
    .error "step of simulation not in the range"
  else .ok (data, duration, step)

/-- The body of the driver loop for one emitted state (index `ts.1`, flat
state `ts.2`): append the position components of each body to its
trajectory, rebuild the bodies, recompute the Hamiltonian `h`, and extend
the energy series (`x` by `t * step` hours, `dy` by the delta against the
previous `y` entry, `y` by `h`). -/
def driverStep (masses : List ℝ) (stepHours : ℤ) (acc : DriverResult)
    (ts : ℕ × List ℝ) : Except String DriverResult :=
  andThen (bodiesFromState ts.2 masses) (fun bodies =>
    let h := hamiltonian bodies
    .ok ⟨acc.traj.enum.map (fun q =>
        ⟨q.2.xs ++ [ts.2.getD (6 * q.1) 0], q.2.ys ++ [ts.2.getD (6 * q.1 + 1) 0],
         q.2.zs ++ [ts.2.getD (6 * q.1 + 2) 0]⟩),
      acc.errX ++ [(ts.1 : ℝ) * (stepHours : ℝ)],
      acc.errY ++ [h],
      acc.errDY ++ [h - acc.errY.getLastD 0]⟩)

/-- `SOLARSimulator.run_simulation`: durations are converted to seconds,
the bodies flattened, the trajectory lists start empty while the energy
series starts at `([0], [hamiltonian(data)], [0])`; an `ERK4` integrator
with `n = int((stop - start)/step)` steps is run over `n_body` with the
masses as fixed keyword argument, and each emitted state is folded through
the driver loop body. -/
def SOLARSimulator.run_simulation (data : List Body) (duration step : ℤ) :
    Except String DriverResult :=
  let stop : ℝ := (duration : ℝ) * 3600
  let fm := flatten data
  let init : DriverResult :=
    ⟨data.map (fun _ => ⟨[], [], []⟩), [0], [hamiltonian data], [0]⟩
  let n : ℤ := duration * 3600 / (step * 3600)
  andThen (ARK.run_simulation (fun t y => n_body t y fm.2) fm.1 0 stop n
      ERK4A ERK4b ERK4c)
    (fun states => states.enum.foldlM (driverStep fm.2 step) init)

/-! ## Definitions written from the words of the specification
(for the refinement-style claims). -/

/-- Euclidean norm of a coordinate list, `|v|`. -/
def euclNorm (v : List ℝ) : ℝ := Real.sqrt ((v.map (fun x => x ^ 2)).sum)

/-- Euclidean distance `|p - q|` between two coordinate lists. -/
def euclDist (p q : List ℝ) : ℝ := euclNorm (List.zipWith (· - ·) p q)

/-- The 3-element position block of body `q` inside a flat state. -/
def statePos (state : List ℝ) (q : ℕ) : List ℝ := pyslice state (6 * q) (6 * q + 3)

/-- The 3-element velocity block of body `q` inside a flat state. -/
def stateVel (state : List ℝ) (q : ℕ) : List ℝ :=
  pyslice state (6 * q + 3) (6 * q + 6)

/-- The acceleration the specification prescribes for body `i` of a
`k`-body flat state: the sum over all other bodies of
`G * m_other * (other.position - this.position) / |other.position -
this.position| ^ 3`, componentwise. -/
def specAccel (state masses : List ℝ) (k i : ℕ) : List ℝ :=
  List.ofFn (fun m : Fin 3 =>
    ∑ j ∈ (Finset.range k).erase i,
      G * masses.getD j 0 *
        ((statePos state j).getD m 0 - (statePos state i).getD m 0) /
        euclDist (statePos state j) (statePos state i) ^ 3)

/-- The body built from block `q` of a flat state, as `n_body` and the
driver loop rebuild it. -/
def bodyAt (cs ms : List ℝ) (q : ℕ) : Body :=
  ⟨ms.getD q 0, statePos cs q, stateVel cs q⟩

/-- The stage argument the specification prescribes:
`y + sum of A[i,j] * k_j over j < i`, componentwise on states of length
`L`. -/
def specStageArg (y : List ℝ) (A : List (List ℝ)) (k_list : List (List ℝ))
    (i L : ℕ) : List ℝ :=
  List.ofFn (fun m : Fin L =>
    y.getD m 0 + ∑ j ∈ Finset.range i,
      (A.getD i []).getD j 0 * (k_list.getD j []).getD m 0)

/-- The state update the specification prescribes:
`y + sum of b_i * k_i`, componentwise on states of length `L`. -/
def specUpdate (y : List ℝ) (b : List ℝ) (k_list : List (List ℝ)) (L : ℕ) :
    List ℝ :=
  List.ofFn (fun m : Fin L =>
    y.getD m 0 + ∑ i ∈ Finset.range b.length, b.getD i 0 * (k_list.getD i []).getD m 0)

/-- A concrete valid two-body system (unit masses, distinct positions) used
to exercise the driver on explicit inputs. -/
def demoBodies : List Body :=
  [⟨1, [0, 0, 0], [0, 0, 0]⟩, ⟨1, [1, 0, 0], [0, 0, 0]⟩]

/-! ## General lemmas about lists, folds and sums -/

theorem andThen_ok {α β : Type} (a : α) (g : α → Except String β) :
    andThen (.ok a) g = g a := rfl

theorem zipWith_getD (g : ℝ → ℝ → ℝ) (u v : List ℝ) (i : ℕ)
    (h1 : i < u.length) (h2 : i < v.length) :
    (List.zipWith g u v).getD i 0 = g (u.getD i 0) (v.getD i 0) := by
  rw [List.getD_eq_getElem?_getD, List.getElem?_zipWith,
    List.getElem?_eq_getElem h1, List.getElem?_eq_getElem h2]
  simp [List.getD_eq_getElem?_getD, List.getElem?_eq_getElem, h1, h2]

theorem getD_in_range (l : List ℝ) (i : ℕ) (d d' : ℝ) (h : i < l.length) :
    l.getD i d = l.getD i d' := by
  rw [List.getD_eq_getElem?_getD, List.getD_eq_getElem?_getD,
    List.getElem?_eq_getElem h]
  rfl

theorem getD_ofFn {L : ℕ} (f : Fin L → ℝ) (m : ℕ) (h : m < L) :
    (List.ofFn f).getD m 0 = f ⟨m, h⟩ := by
  rw [List.getD_eq_getElem?_getD, List.getElem?_ofFn]
  unfold List.ofFnNthVal
  rw [dif_pos h]
  rfl

theorem ofFn_getD_self (y : List ℝ) (L : ℕ) (h : y.length = L) :
    List.ofFn (fun m : Fin L => y.getD m 0) = y := by
  subst h
  apply List.ext_getElem <;>
    simp [List.getD_eq_getElem?_getD, List.getElem?_eq_getElem]

theorem ofFn_congr {L : ℕ} (f g : Fin L → ℝ) (h : ∀ m, f m = g m) :
    List.ofFn f = List.ofFn g := by
  rw [funext h]

theorem foldl_add_eq {α : Type} (g : α → ℝ) (c : ℝ) (l : List α) :
    l.foldl (fun a x => a + g x) c = c + (l.map g).sum := by
  induction l generalizing c with
  | nil => simp
  | cons a t ih => simp [ih, add_assoc]

theorem sum_map_getD {α : Type} (l : List α) (f : α → ℝ) (d : α) :
    (l.map f).sum = ∑ j ∈ Finset.range l.length, f (l.getD j d) := by
  induction l with
  | nil => simp
  | cons a t ih =>
    rw [List.map_cons, List.sum_cons, ih, List.length_cons,
      Finset.sum_range_succ']
    simp [add_comm]

theorem sum_eraseIdx (l : List ℝ) (i : ℕ) (hi : i < l.length) :
    (l.eraseIdx i).sum = l.sum - l.getD i 0 := by
  induction l generalizing i with
  | nil => simp at hi
  | cons a t ih =>
    cases i with
    | zero => simp
    | succ m =>
      have hm : m < t.length := by simpa using hi
      simp only [List.eraseIdx_cons_succ, List.sum_cons, ih m hm,
        List.getD_cons_succ]
      ring

theorem map_eraseIdx {α : Type} (l : List α) (f : α → ℝ) (i : ℕ) :
    (l.eraseIdx i).map f = (l.map f).eraseIdx i := by
  induction l generalizing i with
  | nil => simp
  | cons a t ih =>
    cases i with
    | zero => simp
    | succ m => simp [ih]

theorem sum_map_eraseIdx {α : Type} (l : List α) (f : α → ℝ) (d : α) (i : ℕ)
    (hi : i < l.length) :
    ((l.eraseIdx i).map f).sum =
      ∑ j ∈ (Finset.range l.length).erase i, f (l.getD j d) := by
  rw [map_eraseIdx, sum_eraseIdx _ i (by simpa using hi),
    sum_map_getD l f d, Finset.sum_erase_eq_sub (by simpa using hi)]
  congr 1
  rw [List.getD_eq_getElem?_getD, List.getElem?_map,
    List.getElem?_eq_getElem hi]
  simp [List.getD_eq_getElem?_getD, List.getElem?_eq_getElem, hi]

theorem getD_drop (l : List ℝ) (i j : ℕ) :
    (l.drop i).getD j 0 = l.getD (i + j) 0 := by
  rw [List.getD_eq_getElem?_getD, List.getElem?_drop,
    ← List.getD_eq_getElem?_getD]

theorem getD_take (l : List ℝ) (i j : ℕ) (h : j < i) :
    (l.take i).getD j 0 = l.getD j 0 := by
  rw [List.getD_eq_getElem?_getD, List.getElem?_take, if_pos h,
    List.getD_eq_getElem?_getD]

theorem getD_append_left {α : Type} [Inhabited α] (l1 l2 : List α) (j : ℕ)
    (h : j < l1.length) (d : α) : (l1 ++ l2).getD j d = l1.getD j d := by
  rw [List.getD_eq_getElem?_getD, List.getElem?_append, if_pos h,
    List.getD_eq_getElem?_getD]

theorem getLastD_mem {α : Type} (a : α) (t : List α) (d : α) :
    (a :: t).getLastD d ∈ a :: t := by
  induction t generalizing a with
  | nil => simp
  | cons b r ih => simpa using Or.inr (ih b)

theorem mapM_ok {α β : Type} (l : List α) (f : α → Except String β) (g : α → β)
    (h : ∀ x ∈ l, f x = .ok (g x)) : l.mapM f = .ok (l.map g) := by
  induction l with
  | nil => rfl
  | cons a t ih =>
    rw [List.mapM_cons, h a (by simp)]
    simp only [List.map_cons]
    rw [ih (fun x hx => h x (by simp [hx]))]
    rfl

/-! ## Lemmas on `pyslice` and flat states -/

theorem pyslice_length (l : List ℝ) (a c : ℕ) (h : a + c ≤ l.length) :
    (pyslice l a (a + c)).length = c := by
  simp only [pyslice, List.length_take, List.length_drop]
  omega

theorem pyslice_getD (l : List ℝ) (a c m : ℕ) (hm : m < c) :
    (pyslice l a (a + c)).getD m 0 = l.getD (a + m) 0 := by
  unfold pyslice
  rw [getD_take _ _ _ (by omega), getD_drop]

theorem flatten_uniform_length (blocks : List (List ℝ)) (w : ℕ)
    (h : ∀ bl ∈ blocks, bl.length = w) :
    blocks.flatten.length = w * blocks.length := by
  induction blocks with
  | nil => simp
  | cons bl t ih =>
    simp only [List.flatten_cons, List.length_append, List.length_cons,
      ih (fun x hx => h x (by simp [hx])), h bl (by simp)]
    ring

theorem flatten_block_slice (blocks : List (List ℝ)) (w : ℕ)
    (h : ∀ bl ∈ blocks, bl.length = w) (i : ℕ) (hi : i < blocks.length) :
    pyslice blocks.flatten (w * i) (w * i + w) = blocks.getD i [] := by
  induction blocks generalizing i with
  | nil => simp at hi
  | cons bl t ih =>
    cases i with
    | zero =>
      simp only [Nat.mul_zero, List.flatten_cons, List.getD_cons_zero]
      unfold pyslice
      rw [List.drop_zero, Nat.zero_add, Nat.sub_zero]
      rw [show w = bl.length from (h bl (by simp)).symm, List.take_left]
    | succ m =>
      have hw : w * (m + 1) = bl.length + w * m := by
        rw [h bl (by simp)]; ring
      unfold pyslice
      simp only [List.flatten_cons, hw]
      rw [List.drop_append]
      have := ih (fun x hx => h x (by simp [hx])) m (by simpa using hi)
      unfold pyslice at this
      simpa using this

/-! ## Lemmas on the vector operators and `ARK.__sum` -/

theorem Vector.add_nil (u : List ℝ) : Vector.add u [] = .ok u := by
  simp [Vector.add]

theorem Vector.add_eq_zipWith (u v : List ℝ) (h : u.length = v.length) :
    Vector.add u v = .ok (List.zipWith (· + ·) u v) := by
  unfold Vector.add
  by_cases hv : v.length = 0
  · have hv' : v = [] := List.length_eq_zero.mp hv
    have hu' : u = [] := List.length_eq_zero.mp (by rw [h, hv])
    subst hv'; subst hu'
    simp
  · rw [if_neg hv, if_neg (by omega)]

theorem npAdd_ok (u v : List ℝ) (h : u.length = v.length) :
    npAdd u v = .ok (List.zipWith (· + ·) u v) := by
  simp [npAdd, h]

theorem smul_getD (u : List ℝ) (c : ℝ) (m : ℕ) (hm : m < u.length) :
    (Vector.smul u c).getD m 0 = u.getD m 0 * c := by
  unfold Vector.smul
  rw [List.getD_eq_getElem?_getD, List.getElem?_map, List.getElem?_eq_getElem hm]
  simp [List.getD_eq_getElem?_getD, List.getElem?_eq_getElem, hm]

theorem smul_length (u : List ℝ) (c : ℝ) :
    (Vector.smul u c).length = u.length := by
  simp [Vector.smul]

theorem foldlM_npAdd (L : ℕ) (vs : List (List ℝ)) (acc : List ℝ)
    (hacc : acc.length = L) (hvs : ∀ v ∈ vs, v.length = L) :
    vs.foldlM npAdd acc =
      .ok (List.ofFn (fun m : Fin L =>
        acc.getD m 0 + (vs.map (fun v => v.getD m 0)).sum)) := by
  induction vs generalizing acc with
  | nil =>
    simp only [List.foldlM_nil, List.map_nil, List.sum_nil, add_zero]
    rw [ofFn_getD_self acc L hacc]
    rfl
  | cons v t ih =>
    have hv : v.length = L := hvs v (by simp)
    rw [show ((v :: t).foldlM npAdd acc) =
        (npAdd acc v >>= fun b2 => t.foldlM npAdd b2) from rfl,
      npAdd_ok acc v (by rw [hacc, hv])]
    show t.foldlM npAdd (List.zipWith (· + ·) acc v) = _
    rw [ih (List.zipWith (· + ·) acc v)
      (by rw [List.length_zipWith, hacc, hv, Nat.min_self])
      (fun x hx => hvs x (by simp [hx]))]
    congr 1
    apply ofFn_congr
    intro m
    rw [zipWith_getD _ _ _ _ (by omega) (by omega)]
    simp [add_assoc]

theorem arkSum_nil : arkSum [] = .ok [] := rfl

theorem arkSum_eq (L : ℕ) (vs : List (List ℝ)) (hvs : ∀ v ∈ vs, v.length = L)
    (hne : vs ≠ []) :
    arkSum vs = .ok (List.ofFn (fun m : Fin L =>
      (vs.map (fun v => v.getD m 0)).sum)) := by
  unfold arkSum
  rw [if_neg (by simpa [List.isEmpty_iff] using hne)]
  have hlast : (vs.getLastD []).length = L := by
    cases vs with
    | nil => simp at hne
    | cons a t => exact hvs _ (getLastD_mem a t [])
  rw [hlast, foldlM_npAdd L vs _ (by simp) hvs]
  congr 1
  apply ofFn_congr
  intro m
  rw [List.getD_eq_getElem?_getD, List.getElem?_replicate, if_pos m.isLt]
  simp

theorem sum_map_enumFrom {α : Type} (l : List α) (n : ℕ) (f : ℕ → α → ℝ)
    (d : α) :
    ((List.enumFrom n l).map (fun p => f p.1 p.2)).sum =
      ∑ j ∈ Finset.range l.length, f (n + j) (l.getD j d) := by
  induction l generalizing n with
  | nil => simp
  | cons a t ih =>
    rw [show List.enumFrom n (a :: t) = (n, a) :: List.enumFrom (n + 1) t
        from rfl,
      List.map_cons, List.sum_cons, ih (n + 1), List.length_cons,
      Finset.sum_range_succ']
    simp only [List.getD_cons_succ, List.getD_cons_zero, Nat.add_zero]
    rw [add_comm]
    congr 1
    apply Finset.sum_congr rfl
    intro j _
    have e : n + 1 + j = n + (j + 1) := by omega
    rw [e]

theorem sum_map_enum {α : Type} (l : List α) (f : ℕ → α → ℝ) (d : α) :
    ((l.enum.map (fun p => f p.1 p.2)).sum) =
      ∑ j ∈ Finset.range l.length, f j (l.getD j d) := by
  rw [show l.enum = List.enumFrom 0 l from rfl, sum_map_enumFrom l 0 f d]
  simp

theorem sum_map_zip (b : List ℝ) (ks : List (List ℝ)) (f : ℝ → List ℝ → ℝ)
    (h : b.length = ks.length) :
    ((b.zip ks).map (fun p => f p.1 p.2)).sum =
      ∑ j ∈ Finset.range b.length, f (b.getD j 0) (ks.getD j []) := by
  induction b generalizing ks with
  | nil => simp
  | cons x bt ih =>
    cases ks with
    | nil => simp at h
    | cons k kt =>
      rw [List.zip_cons_cons, List.map_cons, List.sum_cons,
        ih kt (by simpa using h), List.length_cons, Finset.sum_range_succ']
      simp only [List.getD_cons_succ, List.getD_cons_zero]
      rw [add_comm]

theorem zipWith_add_ofFn (y : List ℝ) (L : ℕ) (hy : y.length = L)
    (g : Fin L → ℝ) :
    List.zipWith (· + ·) y (List.ofFn g) =
      List.ofFn (fun m : Fin L => y.getD m 0 + g m) := by
  apply List.ext_getElem
  · simp [hy]
  · intro i h1 h2
    rw [List.getElem_zipWith]
    rw [List.getElem_ofFn, List.getElem_ofFn]
    congr 1
    · rw [List.getD_eq_getElem?_getD,
        List.getElem?_eq_getElem (by simp [hy] at h2 ⊢; omega)]
      rfl

/-! ## Lemmas on the Runge-Kutta stage loop and step update -/

theorem getD_take' {α : Type} (l : List α) (i j : ℕ) (d : α) (h : j < i) :
    (l.take i).getD j d = l.getD j d := by
  rw [List.getD_eq_getElem?_getD, List.getElem?_take, if_pos h,
    List.getD_eq_getElem?_getD]

theorem getD_mem {α : Type} (l : List α) (j : ℕ) (d : α) (h : j < l.length) :
    l.getD j d ∈ l := by
  rw [List.getD_eq_getElem?_getD, List.getElem?_eq_getElem h]
  exact List.getElem_mem h

theorem mem_of_mem_enum {α : Type} {l : List α} {p : ℕ × α}
    (h : p ∈ l.enum) : p.2 ∈ l := by
  have := List.mem_map_of_mem Prod.snd h
  rwa [List.enum_map_snd] at this

theorem enum_fst_lt {α : Type} {l : List α} {p : ℕ × α} (h : p ∈ l.enum) :
    p.1 < l.length := by
  obtain ⟨idx, hidx, hpe⟩ := List.mem_iff_getElem.mp h
  rw [← hpe, List.getElem_enum]
  simpa using hidx

theorem aGet_ok (A : List (List ℝ)) (i j : ℕ) (hi : i < A.length)
    (hj : j < (A.getD i []).length) :
    aGet A i j = .ok ((A.getD i []).getD j 0) := by
  unfold aGet
  rw [if_pos hi, if_pos hj]

theorem getD_append_self {α : Type} (l1 l2 : List α) (d : α) :
    (l1 ++ l2).getD l1.length d = l2.getD 0 d := by
  rw [List.getD_eq_getElem?_getD, List.getElem?_append, if_neg (by omega),
    Nat.sub_self, List.getD_eq_getElem?_getD]

theorem specStageArg_length (y : List ℝ) (A : List (List ℝ))
    (ks : List (List ℝ)) (i L : ℕ) : (specStageArg y A ks i L).length = L := by
  simp [specStageArg]

theorem specStageArg_take (y : List ℝ) (A : List (List ℝ))
    (ks ks' : List (List ℝ)) (i L : ℕ) (h : ks'.take i = ks) :
    specStageArg y A ks' i L = specStageArg y A ks i L := by
  unfold specStageArg
  apply ofFn_congr
  intro m
  congr 1
  apply Finset.sum_congr rfl
  intro j hj
  have hji : j < i := Finset.mem_range.mp hj
  rw [← h, getD_take' _ _ _ _ hji]

theorem stage_sum_add (y : List ℝ) (A : List (List ℝ)) (ks : List (List ℝ))
    (i L : ℕ) (hy : y.length = L) (hks : ∀ k ∈ ks, k.length = L)
    (hlen : ks.length = i)
    (hin : ks = [] ∨ (i < A.length ∧ i ≤ (A.getD i []).length)) :
    ∃ comb s,
      ks.enum.mapM (fun jk =>
        andThen (aGet A i jk.1) (fun a => .ok (Vector.smul jk.2 a))) =
        .ok comb ∧
      arkSum comb = .ok s ∧
      Vector.add y s = .ok (specStageArg y A ks i L) := by
  by_cases hempty : ks = []
  · subst hempty
    have hi : i = 0 := by simpa using hlen.symm
    subst hi
    refine ⟨[], [], rfl, rfl, ?_⟩
    rw [Vector.add_nil]
    unfold specStageArg
    simp only [Finset.range_zero, Finset.sum_empty, add_zero]
    rw [ofFn_getD_self y L hy]
  · have hiA : i < A.length ∧ i ≤ (A.getD i []).length := by
      rcases hin with h | h
      · exact absurd h hempty
      · exact h
    have hmapM : ks.enum.mapM (fun jk =>
        andThen (aGet A i jk.1) (fun a => .ok (Vector.smul jk.2 a))) =
        .ok (ks.enum.map (fun jk =>
          Vector.smul jk.2 ((A.getD i []).getD jk.1 0))) := by
      apply mapM_ok
      intro jk hjk
      have hj : jk.1 < i := by
        have := enum_fst_lt hjk
        omega
      rw [aGet_ok A i jk.1 hiA.1 (by omega), andThen_ok]
    have hcomb : ∀ v ∈ ks.enum.map (fun jk =>
        Vector.smul jk.2 ((A.getD i []).getD jk.1 0)), v.length = L := by
      intro v hv
      simp only [List.mem_map] at hv
      obtain ⟨jk, hjk, rfl⟩ := hv
      rw [smul_length]
      exact hks jk.2 (mem_of_mem_enum hjk)
    have hne2 : ks.enum.map (fun jk =>
        Vector.smul jk.2 ((A.getD i []).getD jk.1 0)) ≠ [] := by
      simp [hempty]
    refine ⟨_, _, hmapM, arkSum_eq L _ hcomb hne2, ?_⟩
    rw [Vector.add_eq_zipWith _ _ (by simp [hy]), zipWith_add_ofFn y L hy]
    congr 1
    apply ofFn_congr
    intro m
    congr 1
    rw [List.map_map]
    rw [show ((fun v : List ℝ => v.getD m 0) ∘
        (fun jk : ℕ × List ℝ =>
          Vector.smul jk.2 ((A.getD i []).getD jk.1 0))) =
        (fun jk : ℕ × List ℝ =>
          (Vector.smul jk.2 ((A.getD i []).getD jk.1 0)).getD m 0)
        from rfl]
    rw [sum_map_enum ks (fun j k =>
      (Vector.smul k ((A.getD i []).getD j 0)).getD m 0) [], hlen]
    apply Finset.sum_congr rfl
    intro j hj
    have hjlen : j < ks.length := by rw [hlen]; exact Finset.mem_range.mp hj
    rw [smul_getD _ _ _ (by rw [hks _ (getD_mem ks j [] hjlen)]; exact m.isLt)]
    ring

theorem specUpdate_length (y : List ℝ) (b : List ℝ) (ks : List (List ℝ))
    (L : ℕ) : (specUpdate y b ks L).length = L := by
  simp [specUpdate]

theorem update_sum_add (y : List ℝ) (b : List ℝ) (ks : List (List ℝ)) (L : ℕ)
    (hy : y.length = L) (hks : ∀ k ∈ ks, k.length = L)
    (hlen : b.length = ks.length) :
    ∃ s, arkSum ((b.zip ks).map (fun p => Vector.smul p.2 p.1)) = .ok s ∧
      Vector.add y s = .ok (specUpdate y b ks L) := by
  by_cases hempty : b = []
  · subst hempty
    refine ⟨[], rfl, ?_⟩
    rw [Vector.add_nil]
    unfold specUpdate
    simp only [List.length_nil, Finset.range_zero, Finset.sum_empty, add_zero]
    rw [ofFn_getD_self y L hy]
  · have hksne : ks ≠ [] := by
      intro hk
      rw [hk] at hlen
      exact hempty (List.length_eq_zero.mp (by simpa using hlen))
    have hcomb : ∀ v ∈ (b.zip ks).map (fun p => Vector.smul p.2 p.1),
        v.length = L := by
      intro v hv
      simp only [List.mem_map] at hv
      obtain ⟨p, hp, rfl⟩ := hv
      rw [smul_length]
      exact hks p.2 (List.of_mem_zip hp).2
    have hne2 : (b.zip ks).map (fun p => Vector.smul p.2 p.1) ≠ [] := by
      cases b with
      | nil => exact absurd rfl hempty
      | cons x bt =>
        cases ks with
        | nil => simp at hlen
        | cons k kt => simp
    rw [arkSum_eq L _ hcomb hne2]
    refine ⟨_, rfl, ?_⟩
    rw [Vector.add_eq_zipWith _ _ (by simp [hy]), zipWith_add_ofFn y L hy]
    congr 1
    apply ofFn_congr
    intro m
    congr 1
    rw [List.map_map]
    rw [show ((fun v : List ℝ => v.getD m 0) ∘
        (fun p : ℝ × List ℝ => Vector.smul p.2 p.1)) =
        (fun p : ℝ × List ℝ => (Vector.smul p.2 p.1).getD m 0) from rfl]
    rw [sum_map_zip b ks (fun bi k => (Vector.smul k bi).getD m 0) hlen]
    apply Finset.sum_congr rfl
    intro j hj
    have hjlen : j < ks.length := by
      rw [← hlen]; exact Finset.mem_range.mp hj
    rw [smul_getD _ _ _ (by rw [hks _ (getD_mem ks j [] hjlen)]; exact m.isLt)]
    ring

theorem stagesGo_spec (f : ℝ → List ℝ → Except String (List ℝ))
    (A : List (List ℝ)) (h t : ℝ) (y : List ℝ) (L : ℕ) (hy : y.length = L)
    (hf : ∀ t' y', y'.length = L → ∃ v, f t' y' = .ok v ∧ v.length = L) :
    ∀ (cs : List ℝ) (i : ℕ) (ks : List (List ℝ)),
      ks.length = i → (∀ k ∈ ks, k.length = L) →
      (∀ i', i ≤ i' → i' < i + cs.length →
        i' = 0 ∨ (i' < A.length ∧ i' ≤ (A.getD i' []).length)) →
      ∃ ks', stagesGo f A h t y cs i ks = .ok ks' ∧
        ks'.length = i + cs.length ∧ (∀ k ∈ ks', k.length = L) ∧
        ks'.take i = ks ∧
        ∀ j, i ≤ j → j < i + cs.length →
          ∃ v, f (t + cs.getD (j - i) 0 * h) (specStageArg y A ks' j L) =
              .ok v ∧
            v.length = L ∧ ks'.getD j [] = Vector.smul v h := by
  intro cs
  induction cs with
  | nil =>
    intro i ks hlen hks _
    refine ⟨ks, rfl, by simp [hlen], hks, ?_, ?_⟩
    · rw [← hlen, List.take_length]
    · intro j hj1 hj2
      simp only [List.length_nil, Nat.add_zero] at hj2
      exact absurd hj2 (by omega)
  | cons c_i rest ih =>
    intro i ks hlen hks hin
    have hin_i : ks = [] ∨ (i < A.length ∧ i ≤ (A.getD i []).length) := by
      rcases hin i (le_refl i) (by simp only [List.length_cons]; omega) with
        h0 | hok
      · left
        rw [← hlen] at h0
        exact List.length_eq_zero.mp h0
      · right
        exact hok
    obtain ⟨comb, s, hcombE, hs, hadd⟩ :=
      stage_sum_add y A ks i L hy hks hlen hin_i
    obtain ⟨v, hv, hvL⟩ := hf (t + c_i * h) (specStageArg y A ks i L)
      (specStageArg_length y A ks i L)
    have hstep : stagesGo f A h t y (c_i :: rest) i ks =
        stagesGo f A h t y rest (i + 1) (ks ++ [Vector.smul v h]) := by
      simp only [stagesGo]
      rw [hcombE, andThen_ok, hs, andThen_ok, hadd, andThen_ok, hv, andThen_ok]
    obtain ⟨ks', hrun, hlen', hks', htake', hstages'⟩ :=
      ih (i + 1) (ks ++ [Vector.smul v h])
        (by simp [hlen])
        (by
          intro k hk
          rcases List.mem_append.mp hk with hk1 | hk2
          · exact hks k hk1
          · rw [List.mem_singleton.mp hk2, smul_length, hvL])
        (by
          intro i' hi1 hi2
          exact hin i' (by omega) (by simp only [List.length_cons]; omega))
    have htake_i : ks'.take i = ks := by
      have h1 : ks'.take i = (ks'.take (i + 1)).take i := by
        rw [List.take_take]
        congr 1
        omega
      rw [h1, htake', ← hlen, List.take_left]
    refine ⟨ks', by rw [hstep]; exact hrun,
      by simp only [List.length_cons]; omega, hks', htake_i, ?_⟩
    intro j hj1 hj2
    simp only [List.length_cons] at hj2
    rcases Nat.eq_or_lt_of_le hj1 with rfl | hji
    · refine ⟨v, ?_, hvL, ?_⟩
      · rw [Nat.sub_self, List.getD_cons_zero,
          specStageArg_take y A ks ks' i L htake_i]
        exact hv
      · have h2 : ks'.getD i [] = (ks'.take (i + 1)).getD i [] :=
          (getD_take' ks' (i + 1) i [] (by omega)).symm
        rw [h2, htake', ← hlen, getD_append_self]
        rfl
    · obtain ⟨v', hv', hvL', hks'j⟩ := hstages' j (by omega) (by omega)
      refine ⟨v', ?_, hvL', hks'j⟩
      have he : j - i = (j - (i + 1)) + 1 := by omega
      rw [he, List.getD_cons_succ]
      exact hv'

theorem rkStep_spec (f : ℝ → List ℝ → Except String (List ℝ))
    (A : List (List ℝ)) (b c : List ℝ) (h : ℝ) (L : ℕ)
    (hbc : b.length = c.length) (hAc : A.length = c.length)
    (hwide : ∀ r ∈ A, c.length - 1 ≤ r.length)
    (hf : ∀ t' y', y'.length = L → ∃ v, f t' y' = .ok v ∧ v.length = L)
    (y : List ℝ) (t : ℝ) (hy : y.length = L) :
    ∃ ks, stagesGo f A h t y c 0 [] = .ok ks ∧ ks.length = c.length ∧
      (∀ k ∈ ks, k.length = L) ∧
      (∀ j, j < c.length →
        ∃ v, f (t + c.getD j 0 * h) (specStageArg y A ks j L) = .ok v ∧
          v.length = L ∧ ks.getD j [] = Vector.smul v h) ∧
      rkStep f A b c h (y, t) = .ok (specUpdate y b ks L, t + h) := by
  have hin : ∀ i', 0 ≤ i' → i' < 0 + c.length →
      i' = 0 ∨ (i' < A.length ∧ i' ≤ (A.getD i' []).length) := by
    intro i' _ hi2
    rcases Nat.eq_zero_or_pos i' with h0 | hpos
    · left
      exact h0
    · right
      have hiA : i' < A.length := by
        rw [hAc]
        omega
      refine ⟨hiA, ?_⟩
      have hr := hwide (A.getD i' []) (getD_mem A i' [] hiA)
      omega
  obtain ⟨ks, hrun, hlen, hklen, htake, hstages⟩ :=
    stagesGo_spec f A h t y L hy hf c 0 [] rfl (by simp) hin
  have hlen' : ks.length = c.length := by simpa using hlen
  obtain ⟨s, hs, hadd⟩ := update_sum_add y b ks L hy hklen (by rw [hbc, hlen'])
  refine ⟨ks, hrun, hlen', hklen, ?_, ?_⟩
  · intro j hj
    simpa using hstages j (by omega) (by simpa using hj)
  · unfold rkStep
    rw [show ((y, t).2 : ℝ) = t from rfl, show ((y, t).1 : List ℝ) = y from rfl]
    rw [hrun, andThen_ok, hs, andThen_ok, hadd, andThen_ok]

theorem stepIter_succ_left (step : List ℝ × ℝ → Except String (List ℝ × ℝ))
    (m : ℕ) (st st2 : List ℝ × ℝ) (h : step st = .ok st2) :
    stepIter step (m + 1) st = stepIter step m st2 := by
  simp only [stepIter]
  rw [h, andThen_ok]

theorem stepIter_one (step : List ℝ × ℝ → Except String (List ℝ × ℝ))
    (st st2 : List ℝ × ℝ) (h : step st = .ok st2) :
    stepIter step 1 st = .ok st2 := by
  rw [stepIter_succ_left step 0 st st2 h]
  rfl

theorem rkIter_spec (step : List ℝ × ℝ → Except String (List ℝ × ℝ))
    (P : List ℝ × ℝ → Prop)
    (hstep : ∀ st, P st → ∃ st2, step st = .ok st2 ∧ P st2) :
    ∀ (m : ℕ) (st : List ℝ × ℝ), P st →
      ∃ l, rkIter step m st = .ok l ∧ l.length = m ∧
        (∀ yv ∈ l, ∃ st2, P st2 ∧ yv = st2.1) ∧
        ∀ j, j < m → ∃ st2, stepIter step (j + 1) st = .ok st2 ∧
          l[j]? = some st2.1 := by
  intro m
  induction m with
  | zero =>
    intro st _
    exact ⟨[], rfl, rfl, by simp, fun j hj => absurd hj (by omega)⟩
  | succ m ih =>
    intro st hst
    obtain ⟨st2, hst2, hP2⟩ := hstep st hst
    obtain ⟨l, hl, hlen, hmem, hidx⟩ := ih st2 hP2
    refine ⟨st2.1 :: l, ?_, by simp [hlen], ?_, ?_⟩
    · simp only [rkIter]
      rw [hst2, andThen_ok, hl, andThen_ok]
    · intro yv hyv
      rcases List.mem_cons.mp hyv with hyv1 | hyv2
      · exact ⟨st2, hP2, hyv1⟩
      · exact hmem yv hyv2
    · intro j hj
      cases j with
      | zero => exact ⟨st2, stepIter_one step st st2 hst2, by simp⟩
      | succ jj =>
        obtain ⟨st3, h3, h4⟩ := hidx jj (by omega)
        refine ⟨st3, ?_, by simpa using h4⟩
        rw [stepIter_succ_left step (jj + 1) st st2 hst2]
        exact h3

theorem validateTableau_lengths (A : List (List ℝ)) (b c : List ℝ)
    (h : validateTableau A b c = .ok ()) :
    A.length = c.length ∧ c.length = b.length := by
  unfold validateTableau at h
  split at h
  · exact absurd h (by simp)
  · next hcond =>
    push_neg at hcond
    exact ⟨hcond.1, hcond.2.1⟩

/-! ## Lemmas on the n-body force model -/

theorem norm_two_eq_euclNorm (v : List ℝ) : norm v 2 = euclNorm v := by
  unfold norm euclNorm
  rw [foldl_add_eq (fun el => |el| ^ 2) 0 v, zero_add]
  have hmap : v.map (fun el => |el| ^ 2) = v.map (fun x => x ^ 2) := by
    apply List.map_congr_left
    intro x _
    rw [sq_abs]
  rw [hmap, Real.sqrt_eq_rpow]
  norm_num

theorem get_magnitude_eq_euclDist (v1 v2 : List ℝ) :
    get_magnitude v1 v2 = euclDist v2 v1 := by
  unfold get_magnitude euclDist
  rw [norm_two_eq_euclNorm]

theorem pyslice_length' (l : List ℝ) (a b : ℕ) (h1 : b ≤ l.length) :
    (pyslice l a b).length = b - a := by
  simp only [pyslice, List.length_take, List.length_drop]
  omega

theorem pyrange6_eq (k : ℕ) : pyrange6 (6 * k) = (List.range k).map (· * 6) := by
  unfold pyrange6
  congr 2
  omega

theorem map_zip_eq_range {β : Type} [Inhabited β] (k : ℕ) (g : ℕ → ℕ)
    (ms : List β) (h : ms.length = k) :
    ((List.range k).map g).zip ms =
      (List.range k).map (fun q => (g q, ms.getD q default)) := by
  apply List.ext_getElem
  · simp [h]
  · intro i h1 h2
    have hik : i < k := by simpa using h2
    rw [List.getElem_zip, List.getElem_map, List.getElem_map,
      List.getElem_range]
    have : ms.getD i default = ms[i] := by
      rw [List.getD_eq_getElem?_getD, List.getElem?_eq_getElem (by omega)]
      rfl
    rw [this]

theorem getD_map' {α β : Type} (l : List α) (f : α → β) (i : ℕ) (dβ : β)
    (dα : α) (h : i < l.length) :
    (l.map f).getD i dβ = f (l.getD i dα) := by
  rw [List.getD_eq_getElem?_getD, List.getElem?_map,
    List.getElem?_eq_getElem h]
  simp [List.getD_eq_getElem?_getD, List.getElem?_eq_getElem, h]

theorem getD_enum {α : Type} (l : List α) (i : ℕ) (d : α) (h : i < l.length) :
    l.enum.getD i (0, d) = (i, l.getD i d) := by
  rw [List.getD_eq_getElem?_getD, List.getElem?_eq_getElem (by simpa using h)]
  simp only [List.getElem_enum, Option.getD_some]
  congr 1
  rw [List.getD_eq_getElem?_getD, List.getElem?_eq_getElem h]
  rfl

theorem bodiesFromState_ok (cs ms : List ℝ) (k : ℕ) (hm : ms.length = k)
    (hs : cs.length = 6 * k) (hmp : ∀ m ∈ ms, 0 < m) :
    bodiesFromState cs ms = .ok ((List.range k).map (bodyAt cs ms)) := by
  unfold bodiesFromState
  rw [hs, pyrange6_eq k, map_zip_eq_range k (· * 6) ms hm]
  rw [mapM_ok _ _
    (fun p => (⟨p.2, pyslice cs p.1 (p.1 + 3),
      pyslice cs (p.1 + 3) (p.1 + 6)⟩ : Body)) ?_]
  · rw [List.map_map]
    congr 1
    apply List.map_congr_left
    intro q hq
    show (⟨ms.getD q default, pyslice cs (q * 6) (q * 6 + 3),
      pyslice cs (q * 6 + 3) (q * 6 + 6)⟩ : Body) = bodyAt cs ms q
    have e1 : q * 6 = 6 * q := by ring
    rw [e1]
    rfl
  · intro p hp
    simp only [List.mem_map, List.mem_range] at hp
    obtain ⟨q, hqk, rfl⟩ := hp
    unfold Body.make
    rw [if_neg (by
        have := hmp _ (getD_mem ms q 0 (by omega))
        simp only [not_le]
        exact this),
      if_neg (by
        rw [pyslice_length' cs _ _ (by omega)]
        omega),
      if_neg (by
        rw [pyslice_length' cs _ _ (by omega)]
        omega)]

theorem get_acc_fold (particle : Body) (hp : particle.position.length = 3) :
    ∀ (others : List Body) (acc : List ℝ), acc.length = 3 →
      (∀ o ∈ others, o.position.length = 3) →
      others.foldl (fun acceleration other => List.zipWith (· + ·) acceleration
        (Vector.smul (List.zipWith (· - ·) other.position particle.position)
          (G * other.mass /
            get_magnitude particle.position other.position ^ 3))) acc =
      List.ofFn (fun m : Fin 3 => acc.getD m 0 +
        (others.map (fun o =>
          (o.position.getD m 0 - particle.position.getD m 0) *
            (G * o.mass /
              get_magnitude particle.position o.position ^ 3))).sum) := by
  intro others
  induction others with
  | nil =>
    intro acc hacc _
    simp only [List.foldl_nil, List.map_nil, List.sum_nil, add_zero]
    exact (ofFn_getD_self acc 3 hacc).symm
  | cons o t ih =>
    intro acc hacc hall
    have ho3 : o.position.length = 3 := hall o (by simp)
    have hw : (Vector.smul (List.zipWith (· - ·) o.position particle.position)
        (G * o.mass / get_magnitude particle.position o.position ^ 3)).length
        = 3 := by
      rw [smul_length, List.length_zipWith, ho3, hp]
      exact min_self 3
    have hacc2 : (List.zipWith (· + ·) acc
        (Vector.smul (List.zipWith (· - ·) o.position particle.position)
          (G * o.mass / get_magnitude particle.position o.position ^ 3))).length
        = 3 := by
      rw [List.length_zipWith, hacc, hw]
      exact min_self 3
    rw [List.foldl_cons, ih _ hacc2 (fun x hx => hall x (by simp [hx]))]
    apply ofFn_congr
    intro m
    rw [zipWith_getD _ _ _ _ (by omega) (by omega),
      smul_getD _ _ _ (by rw [List.length_zipWith, ho3, hp]; exact m.isLt),
      zipWith_getD _ _ _ _ (by omega) (by omega)]
    simp [add_assoc]

theorem get_acceleration_col (others : List Body) (particle : Body)
    (hp : particle.position.length = 3)
    (ho : ∀ o ∈ others, o.position.length = 3) :
    get_acceleration others particle = List.ofFn (fun m : Fin 3 =>
      (others.map (fun o =>
        (o.position.getD m 0 - particle.position.getD m 0) *
          (G * o.mass /
            get_magnitude particle.position o.position ^ 3))).sum) := by
  unfold get_acceleration
  rw [get_acc_fold particle hp others [0, 0, 0] rfl ho]
  apply ofFn_congr
  intro m
  have h0 : ([0, 0, 0] : List ℝ).getD m 0 = 0 := by
    fin_cases m <;> rfl
  rw [h0, zero_add]

theorem bodies_getD (cs ms : List ℝ) (k j : ℕ) (hj : j < k) :
    ((List.range k).map (bodyAt cs ms)).getD j default = bodyAt cs ms j := by
  rw [List.getD_eq_getElem?_getD, List.getElem?_eq_getElem (by simpa using hj)]
  simp

theorem pyslice_first_half (l : List ℝ) (a : ℕ) :
    pyslice l a (a + 3) = (pyslice l a (a + 6)).take 3 := by
  unfold pyslice
  rw [List.take_take]
  congr 1
  omega

theorem pyslice_second_half (l : List ℝ) (a : ℕ) :
    pyslice l (a + 3) (a + 6) = (pyslice l a (a + 6)).drop 3 := by
  unfold pyslice
  rw [List.drop_take, List.drop_drop]
  have e : a + 6 - (a + 3) = a + 6 - a - 3 := by omega
  rw [e]

theorem n_body_content (t : ℝ) (cs ms : List ℝ) (k : ℕ) (hm : ms.length = k)
    (hs : cs.length = 6 * k) (hmp : ∀ m ∈ ms, 0 < m) :
    ∃ out, n_body t cs ms = .ok out ∧ out.length = 6 * k ∧
      ∀ i, i < k →
        pyslice out (6 * i) (6 * i + 3) = stateVel cs i ∧
        pyslice out (6 * i + 3) (6 * i + 6) = specAccel cs ms k i := by
  unfold n_body
  rw [if_neg (by omega), bodiesFromState_ok cs ms k hm hs hmp, andThen_ok]
  set bodies := (List.range k).map (bodyAt cs ms) with hbodies
  set blocks := bodies.enum.map (fun p =>
    p.2.velocity ++ get_acceleration (bodies.eraseIdx p.1) p.2) with hblocks
  have hbound : ∀ q, q < k → 6 * q + 6 ≤ cs.length := by
    intro q hq
    omega
  have hpos3 : ∀ q, q < k → (statePos cs q).length = 3 := by
    intro q hq
    unfold statePos
    rw [pyslice_length' cs _ _ (by omega)]
    omega
  have hvel3 : ∀ q, q < k → (stateVel cs q).length = 3 := by
    intro q hq
    unfold stateVel
    rw [pyslice_length' cs _ _ (by omega)]
    omega
  have hmemb : ∀ b ∈ bodies, b.position.length = 3 := by
    intro b hb
    rw [hbodies] at hb
    simp only [List.mem_map, List.mem_range] at hb
    obtain ⟨q, hq, rfl⟩ := hb
    exact hpos3 q hq
  have hblen : bodies.length = k := by simp [hbodies]
  have hblock6 : ∀ bl ∈ blocks, bl.length = 6 := by
    intro bl hbl
    rw [hblocks] at hbl
    simp only [List.mem_map] at hbl
    obtain ⟨p, hpmem, rfl⟩ := hbl
    have hp2 : p.2 ∈ bodies := mem_of_mem_enum hpmem
    have hp2' : p.2.position.length = 3 := hmemb p.2 hp2
    rw [List.length_append]
    have hvel : p.2.velocity.length = 3 := by
      rw [hbodies] at hp2
      simp only [List.mem_map, List.mem_range] at hp2
      obtain ⟨q, hq, hqe⟩ := hp2
      rw [← hqe]
      exact hvel3 q hq
    have hacc : (get_acceleration (bodies.eraseIdx p.1) p.2).length = 3 := by
      rw [get_acceleration_col _ _ hp2'
        (fun o ho => hmemb o (List.mem_of_mem_eraseIdx ho))]
      simp
    rw [hvel, hacc]
  have hblockslen : blocks.length = k := by
    rw [hblocks]
    simp [hblen]
  refine ⟨blocks.flatten, rfl, ?_, ?_⟩
  · rw [flatten_uniform_length blocks 6 hblock6, hblockslen]
  · intro i hik
    have hbodies_i : bodies.getD i default = bodyAt cs ms i := by
      rw [hbodies]
      exact bodies_getD cs ms k i hik
    have hblocki : blocks.getD i [] =
        (bodyAt cs ms i).velocity ++
          get_acceleration (bodies.eraseIdx i) (bodyAt cs ms i) := by
      rw [hblocks,
        getD_map' bodies.enum _ i [] (0, default) (by simp [hblen]; omega),
        getD_enum bodies i default (by omega), hbodies_i]
    have hfull : pyslice blocks.flatten (6 * i) (6 * i + 6) =
        (bodyAt cs ms i).velocity ++
          get_acceleration (bodies.eraseIdx i) (bodyAt cs ms i) := by
      rw [flatten_block_slice blocks 6 hblock6 i (by omega), hblocki]
    have hvel : (bodyAt cs ms i).velocity.length = 3 := hvel3 i hik
    constructor
    · rw [pyslice_first_half, hfull, ← hvel, List.take_left]
      rfl
    · rw [pyslice_second_half, hfull, ← hvel, List.drop_left]
      rw [get_acceleration_col _ _ (hpos3 i hik)
        (fun o ho => hmemb o (List.mem_of_mem_eraseIdx ho))]
      unfold specAccel
      apply ofFn_congr
      intro m
      rw [sum_map_eraseIdx bodies _ default i (by omega), hblen]
      apply Finset.sum_congr rfl
      intro j hj
      have hjk : j < k := by
        have := Finset.mem_erase.mp hj
        simpa using this.2
      rw [bodies_getD cs ms k j hjk]
      simp only [bodyAt]
      rw [get_magnitude_eq_euclDist]
      ring

/-! ## Lemmas on tableau validation -/

theorem foldl_append_blocks (bodies : List Body) :
    ∀ init : List ℝ,
      bodies.foldl (fun params b => params ++ b.position ++ b.velocity) init =
        init ++ (bodies.map (fun b => b.position ++ b.velocity)).flatten := by
  induction bodies with
  | nil =>
    intro init
    simp
  | cons b t ih =>
    intro init
    rw [List.foldl_cons, ih]
    simp [List.append_assoc]

theorem foldl_append_masses (bodies : List Body) :
    ∀ init : List ℝ,
      bodies.foldl (fun masses b => masses ++ [b.mass]) init =
        init ++ bodies.map (fun b => b.mass) := by
  induction bodies with
  | nil =>
    intro init
    simp
  | cons b t ih =>
    intro init
    rw [List.foldl_cons, ih]
    simp

theorem flatten_eq (bodies : List Body) :
    flatten bodies =
      ((bodies.map (fun b => b.position ++ b.velocity)).flatten,
        bodies.map (fun b => b.mass)) := by
  unfold flatten
  rw [foldl_append_blocks bodies [], foldl_append_masses bodies []]
  simp

theorem flatten_fst_length (bodies : List Body)
    (hwf : ∀ b ∈ bodies, b.position.length = 3 ∧ b.velocity.length = 3) :
    (flatten bodies).1.length = 6 * bodies.length := by
  rw [flatten_eq]
  show ((bodies.map fun b => b.position ++ b.velocity).flatten).length = _
  rw [flatten_uniform_length _ 6 ?_]
  · simp
  · intro bl hbl
    simp only [List.mem_map] at hbl
    obtain ⟨b, hb, rfl⟩ := hbl
    rw [List.length_append, (hwf b hb).1, (hwf b hb).2]

theorem n_body_hf (masses : List ℝ) (k : ℕ) (hmk : masses.length = k)
    (hmp : ∀ m ∈ masses, 0 < m) :
    ∀ t' y', y'.length = 6 * k →
      ∃ v, n_body t' y' masses = .ok v ∧ v.length = 6 * k := by
  intro t' y' hy
  obtain ⟨out, h1, h2, _⟩ := n_body_content t' y' masses k hmk hy hmp
  exact ⟨out, h1, h2⟩

theorem rkStep_ok_of (f : ℝ → List ℝ → Except String (List ℝ))
    (A : List (List ℝ)) (b c : List ℝ) (h : ℝ) (L : ℕ)
    (hbc : b.length = c.length) (hAc : A.length = c.length)
    (hwide : ∀ r ∈ A, c.length - 1 ≤ r.length)
    (hf : ∀ t' y', y'.length = L → ∃ v, f t' y' = .ok v ∧ v.length = L)
    (st : List ℝ × ℝ) (hP : st.1.length = L) :
    ∃ st2, rkStep f A b c h st = .ok st2 ∧ st2.1.length = L := by
  obtain ⟨ks, _, _, _, _, hstep⟩ :=
    rkStep_spec f A b c h L hbc hAc hwide hf st.1 st.2 hP
  exact ⟨(specUpdate st.1 b ks L, st.2 + h), hstep, specUpdate_length _ _ _ _⟩

theorem ARK_run_ok (f : ℝ → List ℝ → Except String (List ℝ)) (y0 : List ℝ)
    (t0 tn : ℝ) (n : ℤ) (A : List (List ℝ)) (b c : List ℝ) (L : ℕ)
    (hL : y0.length = L) (ht : t0 ≠ tn) (hn : 0 < n)
    (hvalid : validateTableau A b c = .ok ())
    (hwide : ∀ r ∈ A, c.length - 1 ≤ r.length)
    (hf : ∀ t' y', y'.length = L → ∃ v, f t' y' = .ok v ∧ v.length = L) :
    ∃ states, ARK.run_simulation f y0 t0 tn n A b c = .ok states ∧
      states.length = n.toNat + 1 ∧
      (∀ yv ∈ states, yv.length = L) ∧
      ∀ j, j < n.toNat + 1 →
        ∃ st2,
          stepIter (rkStep f A b c ((tn - t0) / (n : ℝ))) (j + 1) (y0, t0) =
            .ok st2 ∧ states[j]? = some st2.1 := by
  have hbc : b.length = c.length :=
    ((validateTableau_lengths A b c hvalid).2).symm
  have hAc : A.length = c.length := (validateTableau_lengths A b c hvalid).1
  obtain ⟨l, hl, hlen, hmem, hidx⟩ :=
    rkIter_spec (rkStep f A b c ((tn - t0) / (n : ℝ)))
      (fun st => st.1.length = L)
      (fun st hst => rkStep_ok_of f A b c _ L hbc hAc hwide hf st hst)
      (n.toNat + 1) (y0, t0) hL
  refine ⟨l, ?_, hlen, ?_, hidx⟩
  · unfold ARK.run_simulation
    rw [if_neg (fun hc => ht (sub_eq_zero.mp hc)), if_neg (by omega),
      hvalid, andThen_ok]
    exact hl
  · intro yv hyv
    obtain ⟨st2, hst2, rfl⟩ := hmem yv hyv
    exact hst2

theorem driver_fold_counts (masses : List ℝ) (stepHours : ℤ) (k : ℕ)
    (hmk : masses.length = k) (hmp : ∀ m ∈ masses, 0 < m) :
    ∀ (sts : List (ℕ × List ℝ)) (acc : DriverResult),
      (∀ p ∈ sts, p.2.length = 6 * k) →
      ∃ res, sts.foldlM (driverStep masses stepHours) acc = .ok res ∧
        res.errX.length = acc.errX.length + sts.length ∧
        res.errY.length = acc.errY.length + sts.length ∧
        res.errDY.length = acc.errDY.length + sts.length ∧
        res.traj.length = acc.traj.length ∧
        ∀ j, j < acc.traj.length →
          (res.traj.getD j ⟨[], [], []⟩).xs.length =
            (acc.traj.getD j ⟨[], [], []⟩).xs.length + sts.length ∧
          (res.traj.getD j ⟨[], [], []⟩).ys.length =
            (acc.traj.getD j ⟨[], [], []⟩).ys.length + sts.length ∧
          (res.traj.getD j ⟨[], [], []⟩).zs.length =
            (acc.traj.getD j ⟨[], [], []⟩).zs.length + sts.length := by
  intro sts
  induction sts with
  | nil =>
    intro acc _
    exact ⟨acc, rfl, by simp, by simp, by simp, rfl,
      fun j hj => ⟨by simp, by simp, by simp⟩⟩
  | cons p rest ih =>
    intro acc hall
    have hp : p.2.length = 6 * k := hall p (by simp)
    have hbod := bodiesFromState_ok p.2 masses k hmk hp hmp
    have hstep : driverStep masses stepHours acc p =
        .ok ⟨acc.traj.enum.map (fun q =>
            ⟨q.2.xs ++ [p.2.getD (6 * q.1) 0],
             q.2.ys ++ [p.2.getD (6 * q.1 + 1) 0],
             q.2.zs ++ [p.2.getD (6 * q.1 + 2) 0]⟩),
          acc.errX ++ [(p.1 : ℝ) * (stepHours : ℝ)],
          acc.errY ++ [hamiltonian ((List.range k).map (bodyAt p.2 masses))],
          acc.errDY ++ [hamiltonian ((List.range k).map (bodyAt p.2 masses)) -
            acc.errY.getLastD 0]⟩ := by
      unfold driverStep
      rw [hbod, andThen_ok]
    obtain ⟨res, hres, hx, hy, hdy, htr, hentries⟩ :=
      ih (⟨acc.traj.enum.map (fun q =>
            (⟨q.2.xs ++ [p.2.getD (6 * q.1) 0],
              q.2.ys ++ [p.2.getD (6 * q.1 + 1) 0],
              q.2.zs ++ [p.2.getD (6 * q.1 + 2) 0]⟩ : Traj)),
          acc.errX ++ [(p.1 : ℝ) * (stepHours : ℝ)],
          acc.errY ++ [hamiltonian ((List.range k).map (bodyAt p.2 masses))],
          acc.errDY ++ [hamiltonian ((List.range k).map (bodyAt p.2 masses)) -
            acc.errY.getLastD 0]⟩)
        (fun q hq => hall q (by simp [hq]))
    refine ⟨res, ?_, ?_, ?_, ?_, ?_, ?_⟩
    · rw [show ((p :: rest).foldlM (driverStep masses stepHours) acc) =
        (driverStep masses stepHours acc p >>= fun b2 =>
          rest.foldlM (driverStep masses stepHours) b2) from rfl, hstep]
      exact hres
    · simp only [List.length_append, List.length_cons, List.length_nil] at hx
      simp only [List.length_cons]
      omega
    · simp only [List.length_append, List.length_cons, List.length_nil] at hy
      simp only [List.length_cons]
      omega
    · simp only [List.length_append, List.length_cons, List.length_nil] at hdy
      simp only [List.length_cons]
      omega
    · rw [htr]
      simp
    · intro j hj
      obtain ⟨e1, e2, e3⟩ := hentries j (by simpa using hj)
      simp only [] at e1 e2 e3
      have hmid : ((acc.traj.enum.map (fun q =>
          (⟨q.2.xs ++ [p.2.getD (6 * q.1) 0],
            q.2.ys ++ [p.2.getD (6 * q.1 + 1) 0],
            q.2.zs ++ [p.2.getD (6 * q.1 + 2) 0]⟩ : Traj))).getD j
            ⟨[], [], []⟩) =
          ⟨(acc.traj.getD j ⟨[], [], []⟩).xs ++ [p.2.getD (6 * j) 0],
           (acc.traj.getD j ⟨[], [], []⟩).ys ++ [p.2.getD (6 * j + 1) 0],
           (acc.traj.getD j ⟨[], [], []⟩).zs ++ [p.2.getD (6 * j + 2) 0]⟩ := by
        rw [getD_map' acc.traj.enum (fun q : ℕ × Traj =>
              (⟨q.2.xs ++ [p.2.getD (6 * q.1) 0],
                q.2.ys ++ [p.2.getD (6 * q.1 + 1) 0],
                q.2.zs ++ [p.2.getD (6 * q.1 + 2) 0]⟩ : Traj)) j
            (⟨[], [], []⟩ : Traj) ((0 : ℕ), (⟨[], [], []⟩ : Traj))
            (by simpa using hj),
          getD_enum acc.traj j (⟨[], [], []⟩ : Traj) hj]
      rw [hmid] at e1 e2 e3
      simp only [List.length_append, List.length_cons, List.length_nil]
        at e1 e2 e3
      refine ⟨?_, ?_, ?_⟩ <;> simp only [List.length_cons] <;> omega

theorem driver_run_counts (data : List Body)
    (hwf : ∀ b ∈ data, 0 < b.mass ∧ b.position.length = 3 ∧
      b.velocity.length = 3) :
    ∃ res, SOLARSimulator.run_simulation data 7200 10 = .ok res ∧
      res.errX.length = 722 ∧ res.errY.length = 722 ∧
      res.errDY.length = 722 ∧ res.traj.length = data.length ∧
      ∀ j, j < res.traj.length →
        (res.traj.getD j ⟨[], [], []⟩).xs.length = 721 ∧
        (res.traj.getD j ⟨[], [], []⟩).ys.length = 721 ∧
        (res.traj.getD j ⟨[], [], []⟩).zs.length = 721 := by
  have hmasses : (flatten data).2 = data.map (fun b => b.mass) := by
    rw [flatten_eq]
  have hmk : (flatten data).2.length = data.length := by
    rw [hmasses]
    simp
  have hmp : ∀ m ∈ (flatten data).2, 0 < m := by
    rw [hmasses]
    intro m hm
    simp only [List.mem_map] at hm
    obtain ⟨b, hb, rfl⟩ := hm
    exact (hwf b hb).1
  have hflen : (flatten data).1.length = 6 * data.length :=
    flatten_fst_length data (fun b hb => ⟨(hwf b hb).2.1, (hwf b hb).2.2⟩)
  have hvalid : validateTableau ERK4A ERK4b ERK4c = .ok () := by rfl
  have hwideE : ∀ r ∈ ERK4A, ERK4c.length - 1 ≤ r.length := by
    intro r hr
    simp only [ERK4A, List.mem_cons, List.not_mem_nil, or_false] at hr
    rcases hr with rfl | rfl | rfl | rfl <;> simp [ERK4c]
  have hne : (0 : ℝ) ≠ ((7200 : ℤ) : ℝ) * 3600 := by norm_num
  have hnpos : (0 : ℤ) < 7200 * 3600 / (10 * 3600) := by norm_num
  have hntoNat : ((7200 * 3600 / (10 * 3600) : ℤ)).toNat = 720 := by
    norm_num
    rfl
  obtain ⟨states, hrun, hslen, hsmem, _⟩ :=
    ARK_run_ok (fun t' y => n_body t' y (flatten data).2) (flatten data).1
      0 (((7200 : ℤ) : ℝ) * 3600) (7200 * 3600 / (10 * 3600))
      ERK4A ERK4b ERK4c (6 * data.length) hflen hne hnpos hvalid hwideE
      (n_body_hf (flatten data).2 data.length hmk hmp)
  obtain ⟨res, hfold, hx, hy, hdy, htr, hentries⟩ :=
    driver_fold_counts (flatten data).2 10 data.length hmk hmp states.enum
      ⟨data.map (fun _ => ⟨[], [], []⟩), [0], [hamiltonian data], [0]⟩
      (by
        intro p hp
        exact hsmem p.2 (mem_of_mem_enum hp))
  have henlen : states.enum.length = 721 := by
    rw [List.enum_length, hslen, hntoNat]
  refine ⟨res, ?_, ?_, ?_, ?_, ?_, ?_⟩
  · simp only [SOLARSimulator.run_simulation]
    rw [hrun, andThen_ok]
    exact hfold
  · simp only [List.length_cons, List.length_nil] at hx
    omega
  · simp only [List.length_cons, List.length_nil] at hy
    omega
  · simp only [List.length_cons, List.length_nil] at hdy
    omega
  · rw [htr]
    simp
  · intro j hj
    have hjd : j < data.length := by
      rw [htr] at hj
      simpa using hj
    obtain ⟨e1, e2, e3⟩ := hentries j (by simpa using hjd)
    have hinit : ((data.map (fun _ => (⟨[], [], []⟩ : Traj))).getD j
        ⟨[], [], []⟩) = ⟨[], [], []⟩ := by
      rw [getD_map' data (fun _ => (⟨[], [], []⟩ : Traj)) j
        (⟨[], [], []⟩ : Traj) default hjd]
    rw [hinit] at e1 e2 e3
    simp only [List.length_nil, Nat.zero_add] at e1 e2 e3
    exact ⟨by rw [e1, henlen], by rw [e2, henlen], by rw [e3, henlen]⟩

/-! ## Lemmas on the energy diagnostic -/

theorem smul_comm_map (v : List ℝ) (m : ℝ) :
    Vector.smul v m = v.map (fun x => m * x) := by
  unfold Vector.smul
  apply List.map_congr_left
  intro x _
  ring

theorem euclDist_symm (p q : List ℝ) : euclDist p q = euclDist q p := by
  unfold euclDist euclNorm
  congr 1
  congr 1
  apply List.ext_getElem
  · simp [List.length_zipWith, Nat.min_comm]
  · intro i h1 h2
    simp only [List.getElem_map, List.getElem_zipWith]
    ring

theorem pair_sum_eq (n : ℕ) (f : ℕ → ℕ → ℝ) :
    ∑ p ∈ (Finset.range n ×ˢ Finset.range n).filter (fun p => p.1 < p.2),
        f p.1 p.2 =
      ∑ i ∈ Finset.range n, ∑ j ∈ Finset.Ico (i + 1) n, f i j := by
  rw [Finset.sum_filter, Finset.sum_product]
  apply Finset.sum_congr rfl
  intro i _
  rw [← Finset.sum_filter]
  congr 1
  ext j
  simp only [Finset.mem_filter, Finset.mem_Ico, Finset.mem_range]
  omega

theorem kinetic_eq (particles : List Body) :
    get_kinetic_energy_gen (particles.map (fun b => (b.mass, b.velocity))) =
      ∑ i ∈ Finset.range particles.length,
        euclNorm ((particles.getD i default).velocity.map
          (fun x => (particles.getD i default).mass * x)) ^ 2 /
          (2 * (particles.getD i default).mass) := by
  unfold get_kinetic_energy_gen
  rw [List.map_map]
  rw [show ((fun p : ℝ × List ℝ => norm (Vector.smul p.2 p.1) 2 ^ 2 / (2 * p.1))
      ∘ (fun b : Body => (b.mass, b.velocity))) =
      (fun b : Body => norm (Vector.smul b.velocity b.mass) 2 ^ 2 /
        (2 * b.mass)) from rfl]
  rw [sum_map_getD particles _ default]
  apply Finset.sum_congr rfl
  intro i _
  rw [norm_two_eq_euclNorm, smul_comm_map]

/-! ## The claims -/

/-- C1: for every flat state of length `6k` and mass sequence of length `k`
with all masses strictly positive and the `k` decoded bodies at pairwise
distinct positions, `n_body` returns a vector of the same length `6k` that,
for each body in state order, contains first the velocity of the body copied
through unchanged and then its acceleration, equal to the sum over all other
bodies of `G * m_other * (other.position - this.position) /
|other.position - this.position| ^ 3` with `G = 6.6743015e-11`
(`specAccel`); and whenever `6 * len(masses)` differs from the state length,
`n_body` raises the dimension error instead. -/
theorem claim1_n_body (t : ℝ) (current_state masses : List ℝ) (k : ℕ)
    (hm : masses.length = k) (hs : current_state.length = 6 * k)
    (hmp : ∀ m ∈ masses, 0 < m)
    (hdist : ∀ i j, i < k → j < k → i ≠ j →
      statePos current_state i ≠ statePos current_state j) :
    (∃ out, n_body t current_state masses = .ok out ∧ out.length = 6 * k ∧
      ∀ i, i < k →
        pyslice out (6 * i) (6 * i + 3) = stateVel current_state i ∧
        pyslice out (6 * i + 3) (6 * i + 6) =
          specAccel current_state masses k i) ∧
    (∀ s' m' : List ℝ, 6 * m'.length ≠ s'.length →
      n_body t s' m' = .error "masses and current_state are out of sync") := by
  refine ⟨n_body_content t current_state masses k hm hs hmp, ?_⟩
  intro s' m' hne
  unfold n_body
  rw [if_pos hne]

theorem claim1_n_body_witness :
    ([(1 : ℝ)].length = 1) ∧
    (([0, 0, 0, 0, 0, 0] : List ℝ).length = 6 * 1) ∧
    (∀ m ∈ [(1 : ℝ)], 0 < m) ∧
    ((∃ out, n_body 0 [0, 0, 0, 0, 0, 0] [1] = .ok out ∧
        out.length = 6 * 1 ∧
        ∀ i, i < 1 →
          pyslice out (6 * i) (6 * i + 3) =
            stateVel [0, 0, 0, 0, 0, 0] i ∧
          pyslice out (6 * i + 3) (6 * i + 6) =
            specAccel [0, 0, 0, 0, 0, 0] [1] 1 i) ∧
      (∀ s' m' : List ℝ, 6 * m'.length ≠ s'.length →
        n_body 0 s' m' = .error "masses and current_state are out of sync")) :=
  ⟨rfl, rfl, by norm_num,
    claim1_n_body 0 [0, 0, 0, 0, 0, 0] [1] 1 rfl rfl (by norm_num)
      (by intro i j hi hj hij; omega)⟩

/-- C10: the n-body derivative is independent of its time argument: for any
two times the results of `n_body` coincide (in particular each raises an
error exactly when the other does). -/
theorem claim10_time_independent (t1 t2 : ℝ)
    (current_state masses : List ℝ) :
    n_body t1 current_state masses = n_body t2 current_state masses := rfl

/-- C9 counterexample: the claim says element access raises a boundary error
for every negative index, but `v[-1]` on a 3-element vector returns the last
element without error. -/
theorem claim9_counterexample :
    (-1 : ℤ) < 0 ∧ Vector.getItemInt [(1 : ℝ), 2, 3] (-1) = .ok 3 := by
  constructor
  · decide
  · rfl

/-- C9 amended: integer element access `v[i]` raises a boundary error iff
`i ≥ len(v)` or `i < -len(v)`; an in-range non-negative `i` returns the
`i`-th element, a negative in-range `i` returns the element at position
`len(v) + i` (served from the end); and slice access raises a boundary
error iff a given `start` is negative or a given `stop` exceeds
`len(v)`. -/
theorem claim9_amended (v : List ℝ) (i : ℤ) (start stop : Option ℤ) :
    ((∃ e, Vector.getItemInt v i = .error e) ↔
      ((v.length : ℤ) ≤ i ∨ i < -(v.length : ℤ))) ∧
    (0 ≤ i → i < (v.length : ℤ) →
      Vector.getItemInt v i = .ok (v.getD i.toNat 0)) ∧
    (-(v.length : ℤ) ≤ i → i < 0 →
      Vector.getItemInt v i = .ok (v.getD ((v.length : ℤ) + i).toNat 0)) ∧
    ((∃ e, Vector.getItemSlice v start stop = .error e) ↔
      ((∃ s, start = some s ∧ s < 0) ∨
        (∃ s, stop = some s ∧ (v.length : ℤ) < s))) := by
  refine ⟨?_, ?_, ?_, ?_⟩
  · unfold Vector.getItemInt
    by_cases h1 : (v.length : ℤ) ≤ i
    · rw [if_pos h1]
      exact ⟨fun _ => Or.inl h1, fun _ => ⟨_, rfl⟩⟩
    · rw [if_neg h1]
      by_cases h2 : 0 ≤ i
      · rw [if_pos h2]
        constructor
        · intro ⟨e, he⟩
          exact absurd he (by simp)
        · intro hc
          exfalso
          rcases hc with hc | hc <;> omega
      · rw [if_neg h2]
        by_cases h3 : -(v.length : ℤ) ≤ i
        · rw [if_pos h3]
          constructor
          · intro ⟨e, he⟩
            exact absurd he (by simp)
          · intro hc
            exfalso
            rcases hc with hc | hc <;> omega
        · rw [if_neg h3]
          exact ⟨fun _ => Or.inr (by omega), fun _ => ⟨_, rfl⟩⟩
  · intro h2 h1
    unfold Vector.getItemInt
    rw [if_neg (by omega), if_pos h2]
  · intro h3 hneg
    unfold Vector.getItemInt
    rw [if_neg (by omega), if_neg (by omega), if_pos h3]
  · unfold Vector.getItemSlice
    by_cases h1 : ∃ s, start = some s ∧ s < 0
    · rw [if_pos h1]
      exact ⟨fun _ => Or.inl h1, fun _ => ⟨_, rfl⟩⟩
    · rw [if_neg h1]
      by_cases h2 : ∃ s, stop = some s ∧ (v.length : ℤ) < s
      · rw [if_pos h2]
        exact ⟨fun _ => Or.inr h2, fun _ => ⟨_, rfl⟩⟩
      · rw [if_neg h2]
        constructor
        · intro ⟨e, he⟩
          exact absurd he (by simp)
        · intro hc
          rcases hc with hc | hc
          · exact absurd hc h1
          · exact absurd hc h2

theorem claim9_amended_witness :
    ((∃ e, Vector.getItemInt [(1 : ℝ), 2] (-1) = .error e) ↔
      (([(1 : ℝ), 2].length : ℤ) ≤ -1 ∨
        (-1 : ℤ) < -([(1 : ℝ), 2].length : ℤ))) ∧
    ((0 : ℤ) ≤ -1 → (-1 : ℤ) < ([(1 : ℝ), 2].length : ℤ) →
      Vector.getItemInt [(1 : ℝ), 2] (-1) =
        .ok ([(1 : ℝ), 2].getD (-1 : ℤ).toNat 0)) ∧
    (-([(1 : ℝ), 2].length : ℤ) ≤ -1 → (-1 : ℤ) < 0 →
      Vector.getItemInt [(1 : ℝ), 2] (-1) =
        .ok ([(1 : ℝ), 2].getD (([(1 : ℝ), 2].length : ℤ) + -1).toNat 0)) ∧
    ((∃ e, Vector.getItemSlice [(1 : ℝ), 2] none none = .error e) ↔
      ((∃ s, (none : Option ℤ) = some s ∧ s < 0) ∨
        (∃ s, (none : Option ℤ) = some s ∧ ([(1 : ℝ), 2].length : ℤ) < s))) :=
  claim9_amended [(1 : ℝ), 2] (-1) none none

/-- C7 counterexample: the claim says addition, subtraction and dot product
raise a dimension error for all operand pairs of unequal dimension,
including a 0-dimension operand; but with an empty right operand the code
returns the left operand (addition, subtraction) or 0 (dot product) without
raising. -/
theorem claim7_counterexample :
    ([(1 : ℝ), 2].length ≠ ([] : List ℝ).length) ∧
    Vector.add [(1 : ℝ), 2] [] = .ok [(1 : ℝ), 2] ∧
    Vector.sub [(1 : ℝ), 2] [] = .ok [(1 : ℝ), 2] ∧
    Vector.matmul [(1 : ℝ), 2] [] = .ok 0 := by
  exact ⟨by simp, rfl, rfl, rfl⟩

/-- C7 amended: for operands of unequal dimension, addition, subtraction and
dot product raise a dimension error whenever the right operand is
non-empty; an empty right operand is instead absorbed (addition and
subtraction return the left operand unchanged, the dot product returns 0).
-/
theorem claim7_amended (u v : List ℝ) (h : u.length ≠ v.length) :
    (v.length ≠ 0 →
      Vector.add u v = .error "v must have the same len than self" ∧
      Vector.sub u v = .error "v must have the same len than self" ∧
      Vector.matmul u v = .error "v must have the same len than self") ∧
    (v.length = 0 →
      Vector.add u v = .ok u ∧ Vector.sub u v = .ok u ∧
      Vector.matmul u v = .ok 0) := by
  constructor
  · intro hv
    unfold Vector.add Vector.sub Vector.matmul
    simp only [if_neg hv, if_pos h]
    exact ⟨trivial, trivial, trivial⟩
  · intro hv
    unfold Vector.add Vector.sub Vector.matmul
    simp only [if_pos hv]
    exact ⟨trivial, trivial, trivial⟩

theorem claim7_amended_witness :
    ([(1 : ℝ)].length ≠ [(2 : ℝ), 3].length) ∧
    (([(2 : ℝ), 3].length ≠ 0 →
      Vector.add [(1 : ℝ)] [(2 : ℝ), 3] =
        .error "v must have the same len than self" ∧
      Vector.sub [(1 : ℝ)] [(2 : ℝ), 3] =
        .error "v must have the same len than self" ∧
      Vector.matmul [(1 : ℝ)] [(2 : ℝ), 3] =
        .error "v must have the same len than self") ∧
    ([(2 : ℝ), 3].length = 0 →
      Vector.add [(1 : ℝ)] [(2 : ℝ), 3] = .ok [(1 : ℝ)] ∧
      Vector.sub [(1 : ℝ)] [(2 : ℝ), 3] = .ok [(1 : ℝ)] ∧
      Vector.matmul [(1 : ℝ)] [(2 : ℝ), 3] = .ok 0)) :=
  ⟨by simp, claim7_amended [(1 : ℝ)] [(2 : ℝ), 3] (by simp)⟩

/-- C2: for every explicit Runge-Kutta stepper with a valid s-stage tableau
(A, b, c) and pure derivative `f0` carrying fixed extra keyword parameters
`p`, each step computes the stages `k_i = h * f0 (t + c_i * h)
(y + sum over j < i of A[i,j] * k_j) p` for `i = 0 .. s-1` using only
previously computed stages (`specStageArg`), then emits
`y + sum of b_i * k_i` (`specUpdate`) and advances time by
`h = (tn - t0) / n`, with `p` passed unchanged to every invocation. -/
theorem claim2_rk_stages {κ : Type} (f0 : ℝ → List ℝ → κ → List ℝ) (p : κ)
    (A : List (List ℝ)) (b c : List ℝ) (s L : ℕ)
    (hA : A.length = s) (hb : b.length = s) (hc : c.length = s)
    (hsq : ∀ r ∈ A, r.length = s)
    (hf : ∀ t' y', y'.length = L → (f0 t' y' p).length = L)
    (y : List ℝ) (t t0 tn : ℝ) (n : ℤ) (hy : y.length = L) :
    ∃ ks, stagesGo (fun t' y' => .ok (f0 t' y' p)) A ((tn - t0) / (n : ℝ)) t
        y c 0 [] = .ok ks ∧ ks.length = s ∧
      (∀ i, i < s → ks.getD i [] =
        (f0 (t + c.getD i 0 * ((tn - t0) / (n : ℝ)))
            (specStageArg y A ks i L) p).map
          (fun x => ((tn - t0) / (n : ℝ)) * x)) ∧
      rkStep (fun t' y' => .ok (f0 t' y' p)) A b c ((tn - t0) / (n : ℝ))
        (y, t) = .ok (specUpdate y b ks L, t + (tn - t0) / (n : ℝ)) := by
  obtain ⟨ks, h1, h2, h3, h4, h5⟩ :=
    rkStep_spec (fun t' y' => .ok (f0 t' y' p)) A b c ((tn - t0) / (n : ℝ)) L
      (by omega) (by omega)
      (by
        intro r hr
        have := hsq r hr
        omega)
      (fun t' y' hy' => ⟨f0 t' y' p, rfl, hf t' y' hy'⟩) y t hy
  refine ⟨ks, h1, by omega, ?_, h5⟩
  intro i hi
  obtain ⟨v, hv, hvL, hks⟩ := h4 i (by omega)
  have hveq : v = f0 (t + c.getD i 0 * ((tn - t0) / (n : ℝ)))
      (specStageArg y A ks i L) p := by
    injection hv with hh
    exact hh.symm
  rw [hks, hveq]
  unfold Vector.smul
  apply List.map_congr_left
  intro x _
  ring

theorem claim2_rk_stages_witness :
    (([[(0 : ℝ)]] : List (List ℝ)).length = 1) ∧
    ([(1 : ℝ)].length = 1) ∧ ([(0 : ℝ)].length = 1) ∧
    (∀ r ∈ ([[(0 : ℝ)]] : List (List ℝ)), r.length = 1) ∧
    (∀ (t' : ℝ) (y' : List ℝ), y'.length = 1 → y'.length = 1) ∧
    (∃ ks, stagesGo (fun t' y' => Except.ok y') [[(0 : ℝ)]]
        ((1 - 0) / ((1 : ℤ) : ℝ)) 0 [(0 : ℝ)] [(0 : ℝ)] 0 [] = .ok ks ∧
      ks.length = 1 ∧
      (∀ i, i < 1 → ks.getD i [] =
        (specStageArg [(0 : ℝ)] [[(0 : ℝ)]] ks i 1).map
          (fun x => ((1 - 0) / ((1 : ℤ) : ℝ)) * x)) ∧
      rkStep (fun t' y' => Except.ok y') [[(0 : ℝ)]] [(1 : ℝ)] [(0 : ℝ)]
        ((1 - 0) / ((1 : ℤ) : ℝ)) ([(0 : ℝ)], 0) =
        .ok (specUpdate [(0 : ℝ)] [(1 : ℝ)] ks 1,
          0 + (1 - 0) / ((1 : ℤ) : ℝ))) :=
  ⟨rfl, rfl, rfl, fun r hr => by rw [List.mem_singleton.mp hr]; rfl,
    fun t' y' hy' => hy',
    claim2_rk_stages (fun t y (u : Unit) => y) () [[(0 : ℝ)]] [(1 : ℝ)]
      [(0 : ℝ)] 1 1 rfl rfl rfl
      (fun r hr => by rw [List.mem_singleton.mp hr]; rfl)
      (fun t' y' hy' => hy') [(0 : ℝ)] 0 0 1 1 rfl⟩

/-- C3: for every integrator constructed with step count `n ≥ 1` and
`t0 ≠ tn` over a well-formed tableau — `len(A) = len(b) = len(c) = s` as
checked by the validation, and `A` s-by-s, i.e. every row of length
`s = len(c)` — and a derivative that succeeds and preserves the state
length, `run_simulation` yields a finite sequence of exactly `n + 1` state
vectors; the initial state itself is never emitted: the `j`-th emitted
element is the state after `j + 1` applications of the step update. -/
theorem claim3_run_count (f : ℝ → List ℝ → Except String (List ℝ))
    (y0 : List ℝ) (t0 tn : ℝ) (n : ℤ) (A : List (List ℝ)) (b c : List ℝ)
    (L : ℕ) (hL : y0.length = L) (hn : 1 ≤ n) (ht : t0 ≠ tn)
    (hvalid : validateTableau A b c = .ok ())
    (hsq : ∀ r ∈ A, r.length = c.length)
    (hf : ∀ t' y', y'.length = L → ∃ v, f t' y' = .ok v ∧ v.length = L) :
    ∃ states, ARK.run_simulation f y0 t0 tn n A b c = .ok states ∧
      states.length = n.toNat + 1 ∧
      ∀ j, j < n.toNat + 1 →
        ∃ st, stepIter (rkStep f A b c ((tn - t0) / (n : ℝ))) (j + 1)
            (y0, t0) = .ok st ∧ states[j]? = some st.1 := by
  have hwide : ∀ r ∈ A, c.length - 1 ≤ r.length := by
    intro r hr
    rw [hsq r hr]
    omega
  obtain ⟨states, h1, h2, _, h4⟩ :=
    ARK_run_ok f y0 t0 tn n A b c L hL ht (by omega) hvalid hwide hf
  exact ⟨states, h1, h2, h4⟩

theorem claim3_run_count_witness :
    (([(0 : ℝ)] : List ℝ).length = 1) ∧ ((1 : ℤ) ≥ 1) ∧ ((0 : ℝ) ≠ 1) ∧
    (validateTableau [[(0 : ℝ)]] [(1 : ℝ)] [(0 : ℝ)] = .ok ()) ∧
    (∀ r ∈ ([[(0 : ℝ)]] : List (List ℝ)),
      r.length = ([(0 : ℝ)] : List ℝ).length) ∧
    (∃ states, ARK.run_simulation (fun _ y => .ok y) [(0 : ℝ)] 0 1 1
        [[(0 : ℝ)]] [(1 : ℝ)] [(0 : ℝ)] = .ok states ∧
      states.length = (1 : ℤ).toNat + 1 ∧
      ∀ j, j < (1 : ℤ).toNat + 1 →
        ∃ st, stepIter (rkStep (fun _ y => .ok y) [[(0 : ℝ)]] [(1 : ℝ)]
            [(0 : ℝ)] ((1 - 0) / ((1 : ℤ) : ℝ))) (j + 1) ([(0 : ℝ)], 0) =
          .ok st ∧ states[j]? = some st.1) :=
  ⟨rfl, by norm_num, by norm_num, rfl,
    fun r hr => by rw [List.mem_singleton.mp hr],
    claim3_run_count (fun _ y => .ok y) [(0 : ℝ)] 0 1 1 [[(0 : ℝ)]]
      [(1 : ℝ)] [(0 : ℝ)] 1 rfl (by norm_num) (by norm_num) rfl
      (fun r hr => by rw [List.mem_singleton.mp hr])
      (fun t' y' hy' => ⟨y', rfl, hy'⟩)⟩

/-- C5: for every non-empty body sequence with strictly positive masses and
pairwise distinct positions, `hamiltonian` returns exactly the sum over all
bodies of `|m_i * v_i| ^ 2 / (2 * m_i)` plus
`-(sum over unordered pairs i < j of G * m_i * m_j / |p_i - p_j|)`: total
kinetic energy computed from momentum magnitude plus total potential energy
with each unordered pair counted exactly once. -/
theorem claim5_hamiltonian (particles : List Body) (hne : particles ≠ [])
    (hmp : ∀ b ∈ particles, 0 < b.mass)
    (hdist : ∀ i j, i < particles.length → j < particles.length → i ≠ j →
      (particles.getD i default).position ≠
        (particles.getD j default).position) :
    hamiltonian particles =
      (∑ i ∈ Finset.range particles.length,
        euclNorm ((particles.getD i default).velocity.map
          (fun x => (particles.getD i default).mass * x)) ^ 2 /
          (2 * (particles.getD i default).mass)) +
      (-∑ q ∈ (Finset.range particles.length ×ˢ
          Finset.range particles.length).filter (fun q => q.1 < q.2),
        G * (particles.getD q.1 default).mass *
          (particles.getD q.2 default).mass /
          euclDist (particles.getD q.1 default).position
            (particles.getD q.2 default).position) := by
  unfold hamiltonian
  rw [kinetic_eq, add_comm]
  congr 1
  unfold get_gravitational_energy
  congr 1
  rw [pair_sum_eq particles.length (fun i j =>
    G * (particles.getD i default).mass * (particles.getD j default).mass /
      euclDist (particles.getD i default).position
        (particles.getD j default).position)]
  apply Finset.sum_congr rfl
  intro i _
  apply Finset.sum_congr rfl
  intro j _
  rw [get_magnitude_eq_euclDist, euclDist_symm]

theorem claim5_hamiltonian_witness :
    (([(⟨1, [0, 0, 0], [0, 0, 0]⟩ : Body)] : List Body) ≠ []) ∧
    (∀ b ∈ ([(⟨1, [0, 0, 0], [0, 0, 0]⟩ : Body)] : List Body), 0 < b.mass) ∧
    (hamiltonian [(⟨1, [0, 0, 0], [0, 0, 0]⟩ : Body)] =
      (∑ i ∈ Finset.range [(⟨1, [0, 0, 0], [0, 0, 0]⟩ : Body)].length,
        euclNorm (([(⟨1, [0, 0, 0], [0, 0, 0]⟩ : Body)].getD i
            default).velocity.map
          (fun x => ([(⟨1, [0, 0, 0], [0, 0, 0]⟩ : Body)].getD i
            default).mass * x)) ^ 2 /
          (2 * ([(⟨1, [0, 0, 0], [0, 0, 0]⟩ : Body)].getD i default).mass)) +
      (-∑ q ∈ (Finset.range [(⟨1, [0, 0, 0], [0, 0, 0]⟩ : Body)].length ×ˢ
          Finset.range [(⟨1, [0, 0, 0], [0, 0, 0]⟩ : Body)].length).filter
            (fun q => q.1 < q.2),
        G * ([(⟨1, [0, 0, 0], [0, 0, 0]⟩ : Body)].getD q.1 default).mass *
          ([(⟨1, [0, 0, 0], [0, 0, 0]⟩ : Body)].getD q.2 default).mass /
          euclDist ([(⟨1, [0, 0, 0], [0, 0, 0]⟩ : Body)].getD q.1
              default).position
            ([(⟨1, [0, 0, 0], [0, 0, 0]⟩ : Body)].getD q.2
              default).position)) :=
  ⟨by simp, by intro b hb; rw [List.mem_singleton.mp hb]; norm_num,
    claim5_hamiltonian [(⟨1, [0, 0, 0], [0, 0, 0]⟩ : Body)] (by simp)
      (by intro b hb; rw [List.mem_singleton.mp hb]; norm_num)
      (by intro i j hi hj hij; simp at hi hj; omega)⟩

theorem zip_forall_eq_iff (l1 l2 : List ℝ) (h : l1.length = l2.length) :
    (∀ p ∈ l1.zip l2, p.1 = p.2) ↔ l1 = l2 := by
  constructor
  · intro hall
    apply List.ext_getElem h
    intro i h1 h2
    have hlen : i < (l1.zip l2).length := by
      simp only [List.length_zip]
      omega
    have := hall _ (List.getElem_mem hlen)
    rwa [List.getElem_zip] at this
  · intro heq p hp
    obtain ⟨i, hi, hpe⟩ := List.mem_iff_getElem.mp hp
    rw [← hpe, List.getElem_zip]
    subst heq
    rfl

/-- C8: constructing `SOLARSimulator` succeeds iff no precondition is
violated: it raises an error (before any integration work) iff two
index-distinct bodies share an identical initial position, or the duration
is non-positive, or the step lies outside `(0, duration]`; the
duplicate-position case raises the dedicated duplicate-position error, and
on success the constructor merely stores its arguments, running no
integration step. -/
theorem claim8_simulator_validation (data : List Body) (duration step : ℤ)
    (hwf : ∀ b ∈ data, b.position.length = 3) :
    ((∃ cfg, SOLARSimulator.make data duration step = .ok cfg) ↔
      (¬(∃ i j, i < data.length ∧ j < data.length ∧ i ≠ j ∧
          (data.getD i default).position = (data.getD j default).position) ∧
        0 < duration ∧ 0 < step ∧ step ≤ duration)) ∧
    ((∃ i j, i < data.length ∧ j < data.length ∧ i ≠ j ∧
        (data.getD i default).position = (data.getD j default).position) →
      SOLARSimulator.make data duration step =
        .error "Please make sure all bodies have different coordinates") ∧
    (∀ cfg, SOLARSimulator.make data duration step = .ok cfg →
      cfg = (data, duration, step)) := by
  have hzip : ∀ i j, i < data.length → j < data.length →
      ((∀ p ∈ (data.getD i default).position.zip
          (data.getD j default).position, p.1 = p.2) ↔
        (data.getD i default).position = (data.getD j default).position) := by
    intro i j hi hj
    exact zip_forall_eq_iff _ _
      (by rw [hwf _ (getD_mem data i default hi),
        hwf _ (getD_mem data j default hj)])
  have hcond : (∃ i, ∃ j, i < data.length ∧ j < data.length ∧ i ≠ j ∧
      ∀ p ∈ (data.getD i default).position.zip
        (data.getD j default).position, p.1 = p.2) ↔
      (∃ i j, i < data.length ∧ j < data.length ∧ i ≠ j ∧
        (data.getD i default).position = (data.getD j default).position) := by
    constructor
    · rintro ⟨i, j, hi, hj, hij, hp⟩
      exact ⟨i, j, hi, hj, hij, (hzip i j hi hj).mp hp⟩
    · rintro ⟨i, j, hi, hj, hij, hp⟩
      exact ⟨i, j, hi, hj, hij, (hzip i j hi hj).mpr hp⟩
  unfold SOLARSimulator.make
  by_cases hdup : ∃ i, ∃ j, i < data.length ∧ j < data.length ∧ i ≠ j ∧
      ∀ p ∈ (data.getD i default).position.zip
        (data.getD j default).position, p.1 = p.2
  · rw [if_pos hdup]
    refine ⟨?_, fun _ => rfl, ?_⟩
    · constructor
      · intro ⟨cfg, hcfg⟩
        exact absurd hcfg (by simp)
      · intro ⟨hc, _⟩
        exact absurd (hcond.mp hdup) hc
    · intro cfg hcfg
      exact absurd hcfg (by simp)
  · rw [if_neg hdup]
    by_cases hdur : duration ≤ 0
    · rw [if_pos hdur]
      refine ⟨?_, ?_, ?_⟩
      · constructor
        · intro ⟨cfg, hcfg⟩
          exact absurd hcfg (by simp)
        · intro ⟨_, hd, _⟩
          omega
      · intro hd
        exact absurd (hcond.mpr hd) hdup
      · intro cfg hcfg
        exact absurd hcfg (by simp)
    · rw [if_neg hdur]
      by_cases hstep : step ≤ 0 ∨ duration < step
      · rw [if_pos hstep]
        refine ⟨?_, ?_, ?_⟩
        · constructor
          · intro ⟨cfg, hcfg⟩
            exact absurd hcfg (by simp)
          · intro ⟨_, _, hs1, hs2⟩
            omega
        · intro hd
          exact absurd (hcond.mpr hd) hdup
        · intro cfg hcfg
          exact absurd hcfg (by simp)
      · rw [if_neg hstep]
        refine ⟨?_, ?_, ?_⟩
        · constructor
          · intro _
            refine ⟨fun hc => hdup (hcond.mpr hc), by omega, by omega,
              by omega⟩
          · intro _
            exact ⟨(data, duration, step), rfl⟩
        · intro hd
          exact absurd (hcond.mpr hd) hdup
        · intro cfg hcfg
          injection hcfg with hh
          exact hh.symm

theorem claim8_simulator_validation_witness :
    (∀ b ∈ ([(⟨1, [0, 0, 0], [0, 0, 0]⟩ : Body)] : List Body),
      b.position.length = 3) ∧
    (((∃ cfg, SOLARSimulator.make [(⟨1, [0, 0, 0], [0, 0, 0]⟩ : Body)]
          10 5 = .ok cfg) ↔
      (¬(∃ i j, i < [(⟨1, [0, 0, 0], [0, 0, 0]⟩ : Body)].length ∧
          j < [(⟨1, [0, 0, 0], [0, 0, 0]⟩ : Body)].length ∧ i ≠ j ∧
          ([(⟨1, [0, 0, 0], [0, 0, 0]⟩ : Body)].getD i default).position =
            ([(⟨1, [0, 0, 0], [0, 0, 0]⟩ : Body)].getD j default).position) ∧
        (0 : ℤ) < 10 ∧ (0 : ℤ) < 5 ∧ (5 : ℤ) ≤ 10)) ∧
    ((∃ i j, i < [(⟨1, [0, 0, 0], [0, 0, 0]⟩ : Body)].length ∧
        j < [(⟨1, [0, 0, 0], [0, 0, 0]⟩ : Body)].length ∧ i ≠ j ∧
        ([(⟨1, [0, 0, 0], [0, 0, 0]⟩ : Body)].getD i default).position =
          ([(⟨1, [0, 0, 0], [0, 0, 0]⟩ : Body)].getD j default).position) →
      SOLARSimulator.make [(⟨1, [0, 0, 0], [0, 0, 0]⟩ : Body)] 10 5 =
        .error "Please make sure all bodies have different coordinates") ∧
    (∀ cfg, SOLARSimulator.make [(⟨1, [0, 0, 0], [0, 0, 0]⟩ : Body)] 10 5 =
        .ok cfg →
      cfg = ([(⟨1, [0, 0, 0], [0, 0, 0]⟩ : Body)], 10, 5))) :=
  ⟨by intro b hb; rw [List.mem_singleton.mp hb]; rfl,
    claim8_simulator_validation [(⟨1, [0, 0, 0], [0, 0, 0]⟩ : Body)] 10 5
      (by intro b hb; rw [List.mem_singleton.mp hb]; rfl)⟩

/-- C4 counterexample: with a concrete valid two-body system, running the
driver with duration 7200 h and step 10 h makes the energy series gain 721
entries past its initial entry (722 total), not the 720 the claim states.
-/
theorem claim4_counterexample :
    (∃ res, SOLARSimulator.run_simulation demoBodies 7200 10 = .ok res ∧
      res.errY.length = 722) ∧ (722 : ℕ) ≠ 1 + 720 := by
  obtain ⟨res, h1, _, h3, _⟩ := driver_run_counts demoBodies (by
    intro b hb
    simp only [demoBodies, List.mem_cons, List.mem_singleton,
      List.not_mem_nil, or_false] at hb
    rcases hb with rfl | rfl
    · exact ⟨by norm_num, rfl, rfl⟩
    · exact ⟨by norm_num, rfl, rfl⟩)
  exact ⟨⟨res, h1, h3⟩, by omega⟩

/-- C4 amended: running the simulation driver with duration 7200 h and step
10 h over a valid body collection produces exactly `duration/step + 1`
(= 721) states beyond the initial configuration: the energy series gains
exactly 721 entries past its initial entry (722 total), and each per-body
trajectory series ends with exactly 721 entries (trajectory series start
empty and record no initial entry). -/
theorem claim4_amended (data : List Body)
    (hwf : ∀ b ∈ data, 0 < b.mass ∧ b.position.length = 3 ∧
      b.velocity.length = 3) :
    ∃ res, SOLARSimulator.run_simulation data 7200 10 = .ok res ∧
      res.errY.length = 1 + (720 + 1) ∧ res.errX.length = 1 + (720 + 1) ∧
      res.errDY.length = 1 + (720 + 1) ∧ res.traj.length = data.length ∧
      ∀ j, j < res.traj.length →
        (res.traj.getD j ⟨[], [], []⟩).xs.length = 720 + 1 ∧
        (res.traj.getD j ⟨[], [], []⟩).ys.length = 720 + 1 ∧
        (res.traj.getD j ⟨[], [], []⟩).zs.length = 720 + 1 := by
  obtain ⟨res, h1, h2, h3, h4, h5, h6⟩ := driver_run_counts data hwf
  refine ⟨res, h1, by omega, by omega, by omega, h5, ?_⟩
  intro j hj
  obtain ⟨a1, a2, a3⟩ := h6 j hj
  exact ⟨by omega, by omega, by omega⟩

theorem claim4_amended_witness :
    (∀ b ∈ demoBodies, 0 < b.mass ∧ b.position.length = 3 ∧
      b.velocity.length = 3) ∧
    (∃ res, SOLARSimulator.run_simulation demoBodies 7200 10 = .ok res ∧
      res.errY.length = 1 + (720 + 1) ∧ res.errX.length = 1 + (720 + 1) ∧
      res.errDY.length = 1 + (720 + 1) ∧
      res.traj.length = demoBodies.length ∧
      ∀ j, j < res.traj.length →
        (res.traj.getD j ⟨[], [], []⟩).xs.length = 720 + 1 ∧
        (res.traj.getD j ⟨[], [], []⟩).ys.length = 720 + 1 ∧
        (res.traj.getD j ⟨[], [], []⟩).zs.length = 720 + 1) :=
  have hwf : ∀ b ∈ demoBodies, 0 < b.mass ∧ b.position.length = 3 ∧
      b.velocity.length = 3 := by
    intro b hb
    simp only [demoBodies, List.mem_cons, List.mem_singleton,
      List.not_mem_nil, or_false] at hb
    rcases hb with rfl | rfl
    · exact ⟨by norm_num, rfl, rfl⟩
    · exact ⟨by norm_num, rfl, rfl⟩
  ⟨hwf, claim4_amended demoBodies hwf⟩

end

end Solar
